import Mathlib

/-!
# Verification of the contour-detection pipeline

Shallow embedding of the image-processing core of the repository
(`src/utils/contourUtils.ts` and the processing functions of
`src/components/ImageProcessor.tsx`), together with proofs settling the
frozen claims about it.

Modelling conventions:
* `Uint8ClampedArray` buffers are `List ℕ`; a JavaScript read `buf[i]`
  that is out of range yields `undefined`, so the test `buf[i] === 0`
  is modelled by `bufIsZero` (false out of range) and the truthiness
  test `!!buf[i]` by `truthy` (false out of range, matching `undefined`
  being falsy).  A JavaScript typed-array write out of range is silently
  ignored, exactly as `List.set` is.
* Pixel coordinates inside the tracer are `ℤ` (JavaScript numbers that
  may go negative during neighbour probing); buffer indices are the
  `ℕ` value `(y*width+x).toNat`, which agrees with the JavaScript index
  whenever the bounds guard has passed.
* The `do … while` trace loop of `traceContour` is given a fuel
  parameter; `findContours` runs it with fuel `binary.length + 1`, and
  the termination theorem (claim C9) proves the result is independent of
  the fuel once it exceeds the buffer length, i.e. the source loop
  terminates on every well-formed mask.
-/

/-- A traced contour point, `src/utils/contourUtils.ts` `ContourPoint`
(JavaScript numbers; the tracer only ever stores integers). -/
structure ContourPoint where
  x : ℤ
  y : ℤ
deriving DecidableEq

/-- `src/utils/contourUtils.ts` `ContourData`: the ordered trace plus the
`closed` flag. -/
structure ContourData where
  points : List ContourPoint
  closed : Bool
deriving DecidableEq

/-- JavaScript `buf[i] === 0` on a `Uint8ClampedArray`: true exactly when
the index is in range and holds `0` (`undefined === 0` is false). -/
def bufIsZero (buf : List ℕ) (i : ℕ) : Bool :=
  buf.getD i 1 == 0

/-- JavaScript truthiness of `buf[i]`: false when out of range
(`undefined` is falsy) or when the entry is `0`. -/
def truthy (buf : List ℕ) (i : ℕ) : Bool :=
  buf.getD i 0 != 0

/-- The bounds guard `x >= 0 && x < width && y >= 0 && y < height` used
throughout `contourUtils.ts`. -/
def inB (w h : ℕ) (x y : ℤ) : Bool :=
  0 ≤ x && x < (w : ℤ) && 0 ≤ y && y < (h : ℤ)

/-- The buffer index `y * width + x` of a pixel (as a `ℕ`; agrees with
the JavaScript index whenever the coordinates are in bounds). -/
def pixIdx (w : ℕ) (x y : ℤ) : ℕ :=
  (y * (w : ℤ) + x).toNat

/-- The 4-connected neighbour offsets of `isBorderPixel`
(`contourUtils.ts` lines 62–67): right, down, left, up. -/
def neighbors4 : List (ℤ × ℤ) :=
  [(1, 0), (0, 1), (-1, 0), (0, -1)]

/-- The direction table of `traceContour` (`contourUtils.ts` lines
90–95): 0 right, 1 down, 2 left, 3 up.  Identical to `neighbors4`. -/
def directions : List (ℤ × ℤ) :=
  [(1, 0), (0, 1), (-1, 0), (0, -1)]

/-- `isBorderPixel` (`contourUtils.ts` lines 55–81): in bounds, not
background (`binary[y*width+x] === 0` fails), and with at least one
in-bounds 4-connected background neighbour.  Out-of-bounds neighbours
are skipped, not treated as background. -/
def isBorderPixel (bin : List ℕ) (w h : ℕ) (x y : ℤ) : Bool :=
  if !inB w h x y then false
  else if bufIsZero bin (pixIdx w x y) then false
  else neighbors4.any fun d =>
    inB w h (x + d.1) (y + d.2) && bufIsZero bin (pixIdx w (x + d.1) (y + d.2))

/-- The inner neighbour search of `traceContour` (`contourUtils.ts`
lines 105–119): up to four probes, rotating the direction left
(`dir = (dir+1)%4`) after each failure; the first probe that is an
unvisited border pixel is returned together with the direction it was
found at. -/
def findNext (bin : List ℕ) (w h : ℕ) (vis : List ℕ) (x y : ℤ) :
    ℕ → ℕ → Option (ℤ × ℤ × ℕ)
  | _, 0 => none
  | dir, tries + 1 =>
    let d := directions.getD (dir % 4) (0, 0)
    let nx := x + d.1
    let ny := y + d.2
    if isBorderPixel bin w h nx ny && !truthy vis (pixIdx w nx ny) then
      some (nx, ny, dir % 4)
    else
      findNext bin w h vis x y ((dir + 1) % 4) tries

/-- The `do … while` loop of `traceContour` (`contourUtils.ts` lines
97–123), with fuel.  Each iteration records the current position, marks
it visited (`visited[y*width+x] = 1`), turns right (`dir = (dir+3)%4`),
and searches; if nothing is found it breaks, and if the found pixel
equals the start the `while (x !== startX || y !== startY)` condition
exits the loop.  Returns the recorded points, the visited buffer and the
final position. -/
def traceLoop (bin : List ℕ) (w h : ℕ) (sx sy : ℤ) :
    ℕ → ℤ → ℤ → ℕ → List ContourPoint → List ℕ →
    List ContourPoint × List ℕ × ℤ × ℤ
  | 0, x, y, _, pts, vis => (pts, vis, x, y)
  | fuel + 1, x, y, dir, pts, vis =>
    let pts1 := pts ++ [⟨x, y⟩]
    let vis1 := vis.set (pixIdx w x y) 1
    let dir1 := (dir + 3) % 4
    match findNext bin w h vis1 x y dir1 4 with
    | none => (pts1, vis1, x, y)
    | some (nx, ny, nd) =>
      if nx == sx && ny == sy then (pts1, vis1, nx, ny)
      else traceLoop bin w h sx sy fuel nx ny nd pts1 vis1

/-- `traceContour` (`contourUtils.ts` lines 84–129): runs the trace loop
from the seed and packages the result, with
`closed = (x === startX && y === startY)` on the final position. -/
def traceContour (bin : List ℕ) (w h fuel : ℕ) (sx sy : ℤ) (vis : List ℕ) :
    ContourData × List ℕ :=
  let r := traceLoop bin w h sx sy fuel sx sy 0 [] vis
  (⟨r.1, (r.2.2.1 == sx) && (r.2.2.2 == sy)⟩, r.2.1)

/-- The row-major seed scan of `findContours` (`contourUtils.ts` lines
131–138), over an explicit list of positions, threading the shared
`visited` buffer and appending each traced contour. -/
def scanLoop (bin : List ℕ) (w h fuel : ℕ) :
    List (ℕ × ℕ) → List ℕ → List ContourData → List ContourData × List ℕ
  | [], vis, acc => (acc, vis)
  | p :: rest, vis, acc =>
    let x : ℤ := p.1
    let y : ℤ := p.2
    if isBorderPixel bin w h x y && !truthy vis (pixIdx w x y) then
      let r := traceContour bin w h fuel x y vis
      scanLoop bin w h fuel rest r.2 (acc ++ [r.1])
    else
      scanLoop bin w h fuel rest vis acc

/-- The positions `(x, y)` for `y` in `0..h`, `x` in `0..w`, in the
row-major order of the nested scan loops. -/
def rowMajor (w h : ℕ) : List (ℕ × ℕ) :=
  (List.range h).flatMap fun y => (List.range w).map fun x => (x, y)

/-- `findContours` with explicit trace fuel. -/
def findContoursFuel (fuel : ℕ) (bin : List ℕ) (w h : ℕ) : List ContourData :=
  (scanLoop bin w h fuel (rowMajor w h) (List.replicate bin.length 0) []).1

/-- `findContours` (`contourUtils.ts` lines 46–141): scan the mask in
row-major order, starting a trace at every unvisited border pixel; the
visited buffer has the length of the binary buffer
(`new Uint8ClampedArray(binary.length)`). -/
def findContours (bin : List ℕ) (w h : ℕ) : List ContourData :=
  findContoursFuel (bin.length + 1) bin w h

/-- `applyThreshold` (`contourUtils.ts` lines 32–43):
`binary[i] = grayscale[i] > threshold ? 255 : 0`, element-wise. -/
def applyThreshold (grayscale : List ℕ) (threshold : ℕ) : List ℕ :=
  grayscale.map fun g => if g > threshold then 255 else 0

section SmokeTests

example : findContours [0, 0, 0, 0, 255, 0, 0, 0, 0] 3 3 =
    [⟨[⟨1, 1⟩], true⟩] := by decide

example : findContours [255, 255, 255, 255] 2 2 = [] := by decide

example : findContours [255] 2 1 = [] := by decide

example : applyThreshold [0, 130, 255] 128 = [0, 255, 255] := by decide

end SmokeTests

/-! ## Buffer and index lemmas -/

theorem inB_iff {w h : ℕ} {x y : ℤ} :
    inB w h x y = true ↔ 0 ≤ x ∧ x < (w : ℤ) ∧ 0 ≤ y ∧ y < (h : ℤ) := by
  simp [inB, and_assoc]

theorem truthy_eq_false_iff {buf : List ℕ} {i : ℕ} :
    truthy buf i = false ↔ buf.getD i 0 = 0 := by
  simp [truthy]

theorem getD_set_self {l : List ℕ} {i : ℕ} {a : ℕ} (h : i < l.length) :
    (l.set i a).getD i 0 = a := by
  induction l generalizing i with
  | nil => simp at h
  | cons b t ih =>
    cases i with
    | zero => simp [List.set]
    | succ j =>
      simp only [List.length_cons, Nat.succ_lt_succ_iff] at h
      simpa [List.set] using ih h

theorem getD_set_ne {l : List ℕ} {i j : ℕ} {a : ℕ} (h : i ≠ j) :
    (l.set i a).getD j 0 = l.getD j 0 := by
  induction l generalizing i j with
  | nil => simp [List.set]
  | cons b t ih =>
    cases i with
    | zero =>
      cases j with
      | zero => exact absurd rfl h
      | succ j2 => simp [List.set]
    | succ i2 =>
      cases j with
      | zero => simp [List.set]
      | succ j2 =>
        have h2 : i2 ≠ j2 := fun he => h (by rw [he])
        simpa [List.set] using ih h2

theorem truthy_set_self {vis : List ℕ} {i : ℕ} (h : i < vis.length) :
    truthy (vis.set i 1) i = true := by
  unfold truthy
  rw [getD_set_self h]
  decide

theorem truthy_set_mono {vis : List ℕ} {i j : ℕ}
    (h : truthy vis j = true) : truthy (vis.set i 1) j = true := by
  rcases eq_or_ne i j with rfl | hne
  · rcases Nat.lt_or_ge i vis.length with hlt | hge
    · exact truthy_set_self hlt
    · rwa [List.set_eq_of_length_le hge]
  · unfold truthy at h ⊢
    rwa [getD_set_ne hne]

theorem truthy_set_rev {vis : List ℕ} {i j : ℕ}
    (h : truthy (vis.set i 1) j = true) : j = i ∨ truthy vis j = true := by
  rcases eq_or_ne i j with rfl | hne
  · exact Or.inl rfl
  · right
    unfold truthy at h ⊢
    rwa [getD_set_ne hne] at h

/-- The number of unvisited entries of the visited buffer: the strictly
decreasing measure of the trace loop. -/
def freeCount (vis : List ℕ) : ℕ :=
  (vis.filter fun v => v == 0).length

theorem freeCount_le (vis : List ℕ) : freeCount vis ≤ vis.length :=
  List.length_filter_le _ _

theorem freeCount_set {vis : List ℕ} {i : ℕ}
    (hlt : i < vis.length) (h0 : vis.getD i 0 = 0) :
    freeCount vis = freeCount (vis.set i 1) + 1 := by
  induction vis generalizing i with
  | nil => simp at hlt
  | cons b t ih =>
    cases i with
    | zero =>
      simp only [List.getD_cons_zero] at h0
      subst h0
      simp [freeCount, List.set, List.filter]
    | succ j =>
      simp only [List.length_cons, Nat.succ_lt_succ_iff] at hlt
      simp only [List.getD_cons_succ] at h0
      have ihe := ih hlt h0
      show freeCount (b :: t) = freeCount (b :: t.set j 1) + 1
      by_cases hb : (b == 0) = true
      · simp only [freeCount, List.filter_cons, hb, if_true, List.length_cons] at ihe ⊢
        omega
      · simp only [freeCount, List.filter_cons, hb, if_false, Bool.false_eq_true] at ihe ⊢
        omega

theorem pixIdx_natCast (w a b : ℕ) :
    pixIdx w (a : ℤ) (b : ℤ) = b * w + a := by
  unfold pixIdx
  rw [show ((b : ℤ) * (w : ℤ) + (a : ℤ)) = ((b * w + a : ℕ) : ℤ) by push_cast; ring]
  exact Int.toNat_natCast _

theorem pixIdx_lt {w h : ℕ} {x y : ℤ} (hb : inB w h x y = true) :
    pixIdx w x y < w * h := by
  rcases inB_iff.mp hb with ⟨hx0, hxw, hy0, hyh⟩
  have hw0 : 0 < w := by
    have : (0 : ℤ) < (w : ℤ) := lt_of_le_of_lt hx0 hxw
    exact_mod_cast this
  have hh0 : 0 < h := by
    have : (0 : ℤ) < (h : ℤ) := lt_of_le_of_lt hy0 hyh
    exact_mod_cast this
  unfold pixIdx
  rw [Int.toNat_lt' (Nat.mul_ne_zero (by omega) (by omega))]
  have hy1 : y ≤ (h : ℤ) - 1 := by omega
  have hmul : y * (w : ℤ) ≤ ((h : ℤ) - 1) * w :=
    mul_le_mul_of_nonneg_right hy1 (by positivity)
  push_cast
  nlinarith

theorem pixIdx_inj {w h : ℕ} {x y x2 y2 : ℤ}
    (h1 : inB w h x y = true) (h2 : inB w h x2 y2 = true)
    (he : pixIdx w x y = pixIdx w x2 y2) : x = x2 ∧ y = y2 := by
  rcases inB_iff.mp h1 with ⟨hx0, hxw, hy0, hyh⟩
  rcases inB_iff.mp h2 with ⟨hx20, hx2w, hy20, hy2h⟩
  have hnn1 : 0 ≤ y * (w : ℤ) + x := by positivity
  have hnn2 : 0 ≤ y2 * (w : ℤ) + x2 := by positivity
  have heq : y * (w : ℤ) + x = y2 * (w : ℤ) + x2 := by
    have := congrArg (fun n : ℕ => (n : ℤ)) he
    simpa [pixIdx, Int.toNat_of_nonneg hnn1, Int.toNat_of_nonneg hnn2] using this
  have hdiff : (y - y2) * (w : ℤ) = x2 - x := by ring_nf; linarith
  rcases eq_or_ne y y2 with rfl | hne
  · constructor
    · linarith
    · rfl
  · exfalso
    have habs : (1 : ℤ) ≤ |y - y2| := Int.one_le_abs (sub_ne_zero.mpr hne)
    have hw1 : |(y - y2) * (w : ℤ)| = |y - y2| * (w : ℤ) := by
      rw [abs_mul, abs_of_nonneg (by positivity : (0 : ℤ) ≤ (w : ℤ))]
    have hge : (w : ℤ) ≤ |(y - y2) * (w : ℤ)| := by
      rw [hw1]
      nlinarith
    have hlt2 : |x2 - x| < (w : ℤ) := by
      rw [abs_lt]; omega
    rw [hdiff] at hge
    omega

theorem isBorder_inB {bin : List ℕ} {w h : ℕ} {x y : ℤ}
    (hb : isBorderPixel bin w h x y = true) : inB w h x y = true := by
  by_contra hc
  simp only [isBorderPixel] at hb
  rw [Bool.not_eq_true] at hc
  simp [hc] at hb

theorem isBorder_notZero {bin : List ℕ} {w h : ℕ} {x y : ℤ}
    (hb : isBorderPixel bin w h x y = true) :
    bufIsZero bin (pixIdx w x y) = false := by
  by_contra hc
  rw [Bool.not_eq_false] at hc
  have hib := isBorder_inB hb
  simp [isBorderPixel, hib, hc] at hb

/-- Full characterisation of `isBorderPixel`: in bounds, foreground, and
owning at least one in-bounds 4-connected background neighbour.  There
is no clause for pixels adjacent to the image edge: out-of-bounds
neighbours are skipped by the bounds test on lines 73 of
`contourUtils.ts`, not treated as background. -/
theorem isBorderPixel_iff {bin : List ℕ} {w h : ℕ} {x y : ℤ} :
    isBorderPixel bin w h x y = true ↔
      inB w h x y = true ∧ bufIsZero bin (pixIdx w x y) = false ∧
      ∃ d ∈ neighbors4, inB w h (x + d.1) (y + d.2) = true ∧
        bufIsZero bin (pixIdx w (x + d.1) (y + d.2)) = true := by
  constructor
  · intro hb
    refine ⟨isBorder_inB hb, isBorder_notZero hb, ?_⟩
    have hib := isBorder_inB hb
    have hnz := isBorder_notZero hb
    simp only [isBorderPixel, hib, hnz] at hb
    simp only [Bool.not_true, Bool.false_eq_true, if_false, if_neg] at hb
    rw [List.any_eq_true] at hb
    rcases hb with ⟨d, hd, hdd⟩
    rw [Bool.and_eq_true] at hdd
    exact ⟨d, hd, hdd.1, hdd.2⟩
  · rintro ⟨hib, hnz, d, hd, hdb, hdz⟩
    simp only [isBorderPixel, hib, hnz, Bool.not_true, Bool.false_eq_true,
      if_false, if_neg]
    rw [List.any_eq_true]
    exact ⟨d, hd, by rw [Bool.and_eq_true]; exact ⟨hdb, hdz⟩⟩

theorem findNext_some {bin : List ℕ} {w h : ℕ} {vis : List ℕ} {x y : ℤ} :
    ∀ {tries dir : ℕ} {nx ny : ℤ} {nd : ℕ},
      findNext bin w h vis x y dir tries = some (nx, ny, nd) →
      isBorderPixel bin w h nx ny = true ∧
      truthy vis (pixIdx w nx ny) = false ∧
      ∃ d ∈ directions, nx = x + d.1 ∧ ny = y + d.2 := by
  intro tries
  induction tries with
  | zero => intro dir nx ny nd hf; simp [findNext] at hf
  | succ t ih =>
    intro dir nx ny nd hf
    rw [findNext] at hf
    by_cases hc :
        (isBorderPixel bin w h (x + (directions.getD (dir % 4) (0, 0)).1)
            (y + (directions.getD (dir % 4) (0, 0)).2) &&
          !truthy vis (pixIdx w (x + (directions.getD (dir % 4) (0, 0)).1)
            (y + (directions.getD (dir % 4) (0, 0)).2))) = true
    · rw [if_pos hc] at hf
      rw [Bool.and_eq_true, Bool.not_eq_true'] at hc
      cases hf
      refine ⟨hc.1, hc.2, directions.getD (dir % 4) (0, 0), ?_, rfl, rfl⟩
      have h4 : dir % 4 = 0 ∨ dir % 4 = 1 ∨ dir % 4 = 2 ∨ dir % 4 = 3 := by omega
      rcases h4 with h4 | h4 | h4 | h4 <;> rw [h4] <;> decide
    · rw [if_neg hc] at hf
      exact ih hf

/-! ## The trace-loop invariant bundle -/

/-- Unfolding of one `do … while` iteration of the trace loop. -/
theorem traceLoop_succ (bin : List ℕ) (w h : ℕ) (sx sy : ℤ) (fuel : ℕ)
    (x y : ℤ) (dir : ℕ) (pts : List ContourPoint) (vis : List ℕ) :
    traceLoop bin w h sx sy (fuel + 1) x y dir pts vis =
      match findNext bin w h (vis.set (pixIdx w x y) 1) x y ((dir + 3) % 4) 4 with
      | none => (pts ++ [⟨x, y⟩], vis.set (pixIdx w x y) 1, x, y)
      | some (nx, ny, nd) =>
        if nx == sx && ny == sy then
          (pts ++ [⟨x, y⟩], vis.set (pixIdx w x y) 1, nx, ny)
        else
          traceLoop bin w h sx sy fuel nx ny nd (pts ++ [⟨x, y⟩])
            (vis.set (pixIdx w x y) 1) := rfl

/-- The adjacency relation between consecutive trace points: the later
one is reached from the earlier by one of the four direction steps. -/
def StepAdj (p q : ContourPoint) : Prop :=
  ∃ d ∈ directions, q.x = p.x + d.1 ∧ q.y = p.y + d.2

/-- Invariant bundle for the trace loop: starting from an unvisited
border pixel with enough fuel, the loop appends a nonempty, duplicate-free,
step-adjacent chain of border pixels beginning at the current pixel, all
freshly unvisited at entry and visited on exit; the visited buffer only
grows, everything newly visited is a recorded point, and the number of
unvisited entries does not increase. -/
theorem traceLoop_spec (bin : List ℕ) (w h : ℕ) (sx sy : ℤ) :
    ∀ (fuel : ℕ) (x y : ℤ) (dir : ℕ) (pts : List ContourPoint) (vis : List ℕ),
      vis.length = w * h →
      isBorderPixel bin w h x y = true →
      truthy vis (pixIdx w x y) = false →
      freeCount vis < fuel →
      ∃ (news : List ContourPoint) (vis2 : List ℕ) (fx fy : ℤ),
        traceLoop bin w h sx sy fuel x y dir pts vis = (pts ++ news, vis2, fx, fy) ∧
        news.head? = some ⟨x, y⟩ ∧
        news ≠ [] ∧
        news.Nodup ∧
        List.Chain' StepAdj news ∧
        (∀ p ∈ news, isBorderPixel bin w h p.x p.y = true ∧
          truthy vis (pixIdx w p.x p.y) = false ∧
          truthy vis2 (pixIdx w p.x p.y) = true) ∧
        vis2.length = vis.length ∧
        (∀ i, truthy vis i = true → truthy vis2 i = true) ∧
        (∀ i, truthy vis2 i = true →
          truthy vis i = true ∨ ∃ p ∈ news, pixIdx w p.x p.y = i) ∧
        freeCount vis2 ≤ freeCount vis := by
  intro fuel
  induction fuel with
  | zero =>
    intro x y dir pts vis _ _ _ hf
    exact absurd hf (Nat.not_lt_zero _)
  | succ fuel ih =>
    intro x y dir pts vis hlen hbor hunv hf
    have hib : inB w h x y = true := isBorder_inB hbor
    have hidx : pixIdx w x y < vis.length := by
      rw [hlen]; exact pixIdx_lt hib
    have hself : truthy (vis.set (pixIdx w x y) 1) (pixIdx w x y) = true :=
      truthy_set_self hidx
    have hfree1 : freeCount vis = freeCount (vis.set (pixIdx w x y) 1) + 1 :=
      freeCount_set hidx (truthy_eq_false_iff.mp hunv)
    have hlen1 : (vis.set (pixIdx w x y) 1).length = vis.length := by simp
    cases hfn : findNext bin w h (vis.set (pixIdx w x y) 1) x y ((dir + 3) % 4) 4 with
    | none =>
      have heq0 : traceLoop bin w h sx sy (fuel + 1) x y dir pts vis =
          (pts ++ [⟨x, y⟩], vis.set (pixIdx w x y) 1, x, y) := by
        rw [traceLoop_succ, hfn]
      refine ⟨[⟨x, y⟩], vis.set (pixIdx w x y) 1, x, y, heq0, rfl, by simp, by simp,
        by simp [List.chain'_singleton], ?_, hlen1, ?_, ?_, by omega⟩
      · intro p hp
        have hp2 : p = (⟨x, y⟩ : ContourPoint) := by simpa using hp
        subst hp2
        exact ⟨hbor, hunv, hself⟩
      · intro i hi
        exact truthy_set_mono hi
      · intro i hi
        rcases truthy_set_rev hi with hie | hv
        · exact Or.inr ⟨⟨x, y⟩, by simp, hie.symm⟩
        · exact Or.inl hv
    | some r =>
      obtain ⟨nx, nyd⟩ := r
      obtain ⟨ny, nd⟩ := nyd
      rcases findNext_some hfn with ⟨hbor2, hunv2, d, hd, hdx, hdy⟩
      by_cases hstart : (nx == sx && ny == sy) = true
      · have heq1 : traceLoop bin w h sx sy (fuel + 1) x y dir pts vis =
            (pts ++ [⟨x, y⟩], vis.set (pixIdx w x y) 1, nx, ny) := by
          rw [traceLoop_succ, hfn]
          exact if_pos hstart
        refine ⟨[⟨x, y⟩], vis.set (pixIdx w x y) 1, nx, ny, heq1, rfl, by simp, by simp,
          by simp [List.chain'_singleton], ?_, hlen1, ?_, ?_, by omega⟩
        · intro p hp
          have hp2 : p = (⟨x, y⟩ : ContourPoint) := by simpa using hp
          subst hp2
          exact ⟨hbor, hunv, hself⟩
        · intro i hi
          exact truthy_set_mono hi
        · intro i hi
          rcases truthy_set_rev hi with hie | hv
          · exact Or.inr ⟨⟨x, y⟩, by simp, hie.symm⟩
          · exact Or.inl hv
      · have heq2 : traceLoop bin w h sx sy (fuel + 1) x y dir pts vis =
            traceLoop bin w h sx sy fuel nx ny nd (pts ++ [⟨x, y⟩])
              (vis.set (pixIdx w x y) 1) := by
          rw [traceLoop_succ, hfn]
          exact if_neg hstart
        obtain ⟨news2, vis2, fx, fy, heq, hhead, hne, hnodup, hchain, hpts,
            hlen2, hmono, hrev, hfc⟩ :=
          ih nx ny nd (pts ++ [⟨x, y⟩]) (vis.set (pixIdx w x y) 1)
            (by rw [hlen1, hlen]) hbor2 hunv2 (by omega)
        refine ⟨⟨x, y⟩ :: news2, vis2, fx, fy, ?_, rfl, by simp, ?_, ?_, ?_,
          hlen2.trans hlen1, ?_, ?_, by omega⟩
        · rw [heq2, heq, List.append_assoc, List.singleton_append]
        · rw [List.nodup_cons]
          refine ⟨?_, hnodup⟩
          intro hmem
          have hfr := (hpts ⟨x, y⟩ hmem).2.1
          rw [hself] at hfr
          exact Bool.true_eq_false.mp hfr
        · rw [List.chain'_cons']
          refine ⟨?_, hchain⟩
          intro q hq
          rw [hhead, Option.mem_some_iff] at hq
          subst hq
          exact ⟨d, hd, hdx, hdy⟩
        · intro p hp
          rcases List.mem_cons.mp hp with rfl | hp2
          · exact ⟨hbor, hunv, hmono _ hself⟩
          · obtain ⟨hb2, hf2, ha2⟩ := hpts p hp2
            refine ⟨hb2, ?_, ha2⟩
            by_contra hc
            rw [Bool.not_eq_false] at hc
            rw [truthy_set_mono hc] at hf2
            exact Bool.true_eq_false.mp hf2
        · intro i hi
          exact hmono i (truthy_set_mono hi)
        · intro i hi
          rcases hrev i hi with hv1 | ⟨p, hp, hpi⟩
          · rcases truthy_set_rev hv1 with hie | hv
            · exact Or.inr ⟨⟨x, y⟩, List.mem_cons_self _ _, hie.symm⟩
            · exact Or.inl hv
          · exact Or.inr ⟨p, List.mem_cons_of_mem _ hp, hpi⟩

/-- The trace loop is fuel-insensitive once the fuel exceeds the number
of unvisited entries: this is the termination of the source `do … while`
loop (each iteration claims a previously unvisited pixel). -/
theorem traceLoop_fuel_irrel (bin : List ℕ) (w h : ℕ) (sx sy : ℤ) :
    ∀ (f1 f2 : ℕ) (x y : ℤ) (dir : ℕ) (pts : List ContourPoint) (vis : List ℕ),
      vis.length = w * h →
      isBorderPixel bin w h x y = true →
      truthy vis (pixIdx w x y) = false →
      freeCount vis < f1 → freeCount vis < f2 →
      traceLoop bin w h sx sy f1 x y dir pts vis =
        traceLoop bin w h sx sy f2 x y dir pts vis := by
  intro f1
  induction f1 with
  | zero =>
    intro f2 x y dir pts vis _ _ _ h1 _
    exact absurd h1 (Nat.not_lt_zero _)
  | succ f1 ih =>
    intro f2 x y dir pts vis hlen hbor hunv h1 h2
    obtain ⟨f2p, rfl⟩ : ∃ f2p, f2 = f2p + 1 := ⟨f2 - 1, by omega⟩
    have hib : inB w h x y = true := isBorder_inB hbor
    have hidx : pixIdx w x y < vis.length := by
      rw [hlen]; exact pixIdx_lt hib
    have hfree1 : freeCount vis = freeCount (vis.set (pixIdx w x y) 1) + 1 :=
      freeCount_set hidx (truthy_eq_false_iff.mp hunv)
    have hlen1 : (vis.set (pixIdx w x y) 1).length = vis.length := by simp
    cases hfn : findNext bin w h (vis.set (pixIdx w x y) 1) x y ((dir + 3) % 4) 4 with
    | none =>
      rw [traceLoop_succ, hfn, traceLoop_succ, hfn]
    | some r =>
      obtain ⟨nx, nyd⟩ := r
      obtain ⟨ny, nd⟩ := nyd
      rcases findNext_some hfn with ⟨hbor2, hunv2, _⟩
      by_cases hstart : (nx == sx && ny == sy) = true
      · have e1 : traceLoop bin w h sx sy (f1 + 1) x y dir pts vis =
            (pts ++ [⟨x, y⟩], vis.set (pixIdx w x y) 1, nx, ny) := by
          rw [traceLoop_succ, hfn]; exact if_pos hstart
        have e2 : traceLoop bin w h sx sy (f2p + 1) x y dir pts vis =
            (pts ++ [⟨x, y⟩], vis.set (pixIdx w x y) 1, nx, ny) := by
          rw [traceLoop_succ, hfn]; exact if_pos hstart
        rw [e1, e2]
      · have e1 : traceLoop bin w h sx sy (f1 + 1) x y dir pts vis =
            traceLoop bin w h sx sy f1 nx ny nd (pts ++ [⟨x, y⟩])
              (vis.set (pixIdx w x y) 1) := by
          rw [traceLoop_succ, hfn]; exact if_neg hstart
        have e2 : traceLoop bin w h sx sy (f2p + 1) x y dir pts vis =
            traceLoop bin w h sx sy f2p nx ny nd (pts ++ [⟨x, y⟩])
              (vis.set (pixIdx w x y) 1) := by
          rw [traceLoop_succ, hfn]; exact if_neg hstart
        rw [e1, e2]
        exact ih f2p nx ny nd (pts ++ [⟨x, y⟩]) (vis.set (pixIdx w x y) 1)
          (by rw [hlen1, hlen]) hbor2 hunv2 (by omega) (by omega)

/-- Specification of one `traceContour` call from an unvisited border
seed: the contour is the nonempty chain of freshly visited border pixels
starting at the seed. -/
theorem traceContour_spec (bin : List ℕ) (w h fuel : ℕ) (sx sy : ℤ)
    (vis : List ℕ)
    (hlen : vis.length = w * h)
    (hbor : isBorderPixel bin w h sx sy = true)
    (hunv : truthy vis (pixIdx w sx sy) = false)
    (hf : freeCount vis < fuel) :
    ∃ (c : ContourData) (vis2 : List ℕ),
      traceContour bin w h fuel sx sy vis = (c, vis2) ∧
      c.points.head? = some ⟨sx, sy⟩ ∧
      c.points ≠ [] ∧
      c.points.Nodup ∧
      List.Chain' StepAdj c.points ∧
      (∀ p ∈ c.points, isBorderPixel bin w h p.x p.y = true ∧
        truthy vis (pixIdx w p.x p.y) = false ∧
        truthy vis2 (pixIdx w p.x p.y) = true) ∧
      vis2.length = vis.length ∧
      (∀ i, truthy vis i = true → truthy vis2 i = true) ∧
      (∀ i, truthy vis2 i = true →
        truthy vis i = true ∨ ∃ p ∈ c.points, pixIdx w p.x p.y = i) ∧
      freeCount vis2 ≤ freeCount vis := by
  obtain ⟨news, vis2, fx, fy, heq, hhead, hne, hnodup, hchain, hpts, hlen2,
      hmono, hrev, hfc⟩ :=
    traceLoop_spec bin w h sx sy fuel sx sy 0 [] vis hlen hbor hunv hf
  refine ⟨⟨news, (fx == sx) && (fy == sy)⟩, vis2, ?_, hhead, hne, hnodup,
    hchain, hpts, hlen2, hmono, hrev, hfc⟩
  unfold traceContour
  rw [heq]
  simp only [List.nil_append]

/-! ## The scan loop -/

/-- Unfolding of one scan step. -/
theorem scanLoop_cons (bin : List ℕ) (w h fuel : ℕ) (q : ℕ × ℕ)
    (rest : List (ℕ × ℕ)) (vis : List ℕ) (acc : List ContourData) :
    scanLoop bin w h fuel (q :: rest) vis acc =
      if isBorderPixel bin w h (q.1 : ℤ) (q.2 : ℤ) &&
          !truthy vis (pixIdx w (q.1 : ℤ) (q.2 : ℤ)) then
        scanLoop bin w h fuel rest
          (traceContour bin w h fuel (q.1 : ℤ) (q.2 : ℤ) vis).2
          (acc ++ [(traceContour bin w h fuel (q.1 : ℤ) (q.2 : ℤ) vis).1])
      else
        scanLoop bin w h fuel rest vis acc := rfl

/-- Contours with disjoint point sets. -/
def PtsDisj (c1 c2 : ContourData) : Prop :=
  ∀ p ∈ c1.points, p ∉ c2.points

/-- Master invariant of the row-major seed scan: the produced contours
are appended behind the accumulator; each is a nonempty duplicate-free
step-adjacent chain of border pixels seeded at one of the scanned
positions, with all its points visited afterwards; the visited buffer
only grows and everything newly visited belongs to some new contour; and
the whole output is pairwise point-disjoint. -/
theorem scanLoop_master (bin : List ℕ) (w h fuel : ℕ) :
    ∀ (l : List (ℕ × ℕ)) (vis : List ℕ) (acc : List ContourData),
      vis.length = w * h →
      w * h < fuel →
      (∀ c ∈ acc, ∀ p ∈ c.points, inB w h p.x p.y = true ∧
        truthy vis (pixIdx w p.x p.y) = true) →
      List.Pairwise PtsDisj acc →
      ∃ (newcs : List ContourData) (vis2 : List ℕ),
        scanLoop bin w h fuel l vis acc = (acc ++ newcs, vis2) ∧
        vis2.length = vis.length ∧
        (∀ i, truthy vis i = true → truthy vis2 i = true) ∧
        (∀ i, truthy vis2 i = true →
          truthy vis i = true ∨ ∃ c ∈ newcs, ∃ p ∈ c.points, pixIdx w p.x p.y = i) ∧
        (∀ c ∈ newcs, c.points ≠ [] ∧ c.points.Nodup ∧
          List.Chain' StepAdj c.points ∧
          (∃ q ∈ l, c.points.head? = some ⟨(q.1 : ℤ), (q.2 : ℤ)⟩) ∧
          (∀ p ∈ c.points, isBorderPixel bin w h p.x p.y = true ∧
            truthy vis2 (pixIdx w p.x p.y) = true)) ∧
        List.Pairwise PtsDisj (acc ++ newcs) := by
  intro l
  induction l with
  | nil =>
    intro vis acc hlen hfuel hacc hpair
    refine ⟨[], vis, by simp [scanLoop], rfl, fun i hi => hi, fun i hi => Or.inl hi,
      by simp, by simpa using hpair⟩
  | cons q rest ih =>
    intro vis acc hlen hfuel hacc hpair
    by_cases hg : (isBorderPixel bin w h (q.1 : ℤ) (q.2 : ℤ) &&
        !truthy vis (pixIdx w (q.1 : ℤ) (q.2 : ℤ))) = true
    · rw [Bool.and_eq_true, Bool.not_eq_true'] at hg
      obtain ⟨hbor, hunv⟩ := hg
      have hffree : freeCount vis < fuel :=
        lt_of_le_of_lt (le_trans (freeCount_le vis) (le_of_eq hlen)) hfuel
      obtain ⟨c, vis1, heqc, hhead, hne, hnodup, hchain, hcpts, hlen1, hmono1,
          hrev1, _⟩ :=
        traceContour_spec bin w h fuel (q.1 : ℤ) (q.2 : ℤ) vis hlen hbor hunv hffree
      have hgg : (isBorderPixel bin w h (q.1 : ℤ) (q.2 : ℤ) &&
          !truthy vis (pixIdx w (q.1 : ℤ) (q.2 : ℤ))) = true := by
        rw [Bool.and_eq_true, Bool.not_eq_true']
        exact ⟨hbor, hunv⟩
      have hstep : scanLoop bin w h fuel (q :: rest) vis acc =
          scanLoop bin w h fuel rest vis1 (acc ++ [c]) := by
        rw [scanLoop_cons, if_pos hgg, heqc]
      have hacc1 : ∀ c2 ∈ acc ++ [c], ∀ p ∈ c2.points,
          inB w h p.x p.y = true ∧ truthy vis1 (pixIdx w p.x p.y) = true := by
        intro c2 hc2 p hp
        rcases List.mem_append.mp hc2 with hc2 | hc2
        · obtain ⟨hinb, hvp⟩ := hacc c2 hc2 p hp
          exact ⟨hinb, hmono1 _ hvp⟩
        · have hc2e : c2 = c := by simpa using hc2
          subst hc2e
          obtain ⟨hbp, _, hap⟩ := hcpts p hp
          exact ⟨isBorder_inB hbp, hap⟩
      have hpair1 : List.Pairwise PtsDisj (acc ++ [c]) := by
        rw [List.pairwise_append]
        refine ⟨hpair, List.pairwise_singleton _ _, ?_⟩
        intro a ha b hb
        have hbe : b = c := by simpa using hb
        subst hbe
        intro p hpa hpb
        have hv := (hacc a ha p hpa).2
        have hf2 := (hcpts p hpb).2.1
        rw [hv] at hf2
        exact Bool.true_eq_false.mp hf2
      obtain ⟨newcs2, vis2, heq2, hlen2, hmono2, hrev2, hprops2, hpair2⟩ :=
        ih vis1 (acc ++ [c]) (hlen1.trans hlen) hfuel hacc1 hpair1
      refine ⟨c :: newcs2, vis2, ?_, hlen2.trans hlen1, ?_, ?_, ?_, ?_⟩
      · rw [hstep, heq2, List.append_assoc, List.singleton_append]
      · intro i hi
        exact hmono2 i (hmono1 i hi)
      · intro i hi
        rcases hrev2 i hi with hv1 | ⟨c2, hc2, p, hp, hpi⟩
        · rcases hrev1 i hv1 with hv | ⟨p, hp, hpi⟩
          · exact Or.inl hv
          · exact Or.inr ⟨c, List.mem_cons_self _ _, p, hp, hpi⟩
        · exact Or.inr ⟨c2, List.mem_cons_of_mem _ hc2, p, hp, hpi⟩
      · intro c2 hc2
        rcases List.mem_cons.mp hc2 with rfl | hc2
        · refine ⟨hne, hnodup, hchain, ⟨q, List.mem_cons_self _ _, hhead⟩, ?_⟩
          intro p hp
          obtain ⟨hbp, _, hap⟩ := hcpts p hp
          exact ⟨hbp, hmono2 _ hap⟩
        · obtain ⟨h1, h2, h3, ⟨q2, hq2, hh⟩, h5⟩ := hprops2 c2 hc2
          exact ⟨h1, h2, h3, ⟨q2, List.mem_cons_of_mem _ hq2, hh⟩, h5⟩
      · rw [← List.singleton_append, ← List.append_assoc]
        exact hpair2
    · have hstep : scanLoop bin w h fuel (q :: rest) vis acc =
          scanLoop bin w h fuel rest vis acc := by
        rw [scanLoop_cons, if_neg hg]
      obtain ⟨newcs2, vis2, heq2, hlen2, hmono2, hrev2, hprops2, hpair2⟩ :=
        ih vis acc hlen hfuel hacc hpair
      refine ⟨newcs2, vis2, hstep.trans heq2, hlen2, hmono2, hrev2, ?_, hpair2⟩
      intro c2 hc2
      obtain ⟨h1, h2, h3, ⟨q2, hq2, hh⟩, h5⟩ := hprops2 c2 hc2
      exact ⟨h1, h2, h3, ⟨q2, List.mem_cons_of_mem _ hq2, hh⟩, h5⟩

theorem truthy_replicate (n i : ℕ) : truthy (List.replicate n 0) i = false := by
  unfold truthy
  rcases Nat.lt_or_ge i n with hlt | hge
  · rw [List.getD_eq_getElem _ _ (by simpa using hlt)]
    simp
  · rw [List.getD_eq_default _ _ (by simpa using hge)]
    simp

/-- Scanning a concatenation of position lists is scanning the first,
then the second from the resulting state. -/
theorem scanLoop_append (bin : List ℕ) (w h fuel : ℕ) :
    ∀ (l1 l2 : List (ℕ × ℕ)) (vis : List ℕ) (acc : List ContourData),
      scanLoop bin w h fuel (l1 ++ l2) vis acc =
        scanLoop bin w h fuel l2 (scanLoop bin w h fuel l1 vis acc).2
          (scanLoop bin w h fuel l1 vis acc).1 := by
  intro l1
  induction l1 with
  | nil => intro l2 vis acc; rfl
  | cons q rest ih =>
    intro l2 vis acc
    rw [List.cons_append, scanLoop_cons, scanLoop_cons]
    by_cases hg : (isBorderPixel bin w h (q.1 : ℤ) (q.2 : ℤ) &&
        !truthy vis (pixIdx w (q.1 : ℤ) (q.2 : ℤ))) = true
    · rw [if_pos hg, if_pos hg]
      exact ih l2 _ _
    · rw [if_neg hg, if_neg hg]
      exact ih l2 _ _

theorem scanLoop_length_le (bin : List ℕ) (w h fuel : ℕ) :
    ∀ (l : List (ℕ × ℕ)) (vis : List ℕ) (acc : List ContourData),
      acc.length ≤ (scanLoop bin w h fuel l vis acc).1.length := by
  intro l
  induction l with
  | nil => intro vis acc; exact le_refl _
  | cons q rest ih =>
    intro vis acc
    rw [scanLoop_cons]
    by_cases hg : (isBorderPixel bin w h (q.1 : ℤ) (q.2 : ℤ) &&
        !truthy vis (pixIdx w (q.1 : ℤ) (q.2 : ℤ))) = true
    · rw [if_pos hg]
      calc acc.length
          ≤ (acc ++ [(traceContour bin w h fuel (q.1 : ℤ) (q.2 : ℤ) vis).1]).length := by
            simp
        _ ≤ _ := ih _ _
    · rw [if_neg hg]
      exact ih _ _

/-- If some scanned position is an unvisited border pixel at scan start,
the scan produces at least one new contour (either that pixel seeds one,
or an earlier seed in the same scan already did). -/
theorem scanLoop_progress (bin : List ℕ) (w h fuel : ℕ) :
    ∀ (l : List (ℕ × ℕ)) (vis : List ℕ) (acc : List ContourData) (q : ℕ × ℕ),
      q ∈ l →
      isBorderPixel bin w h (q.1 : ℤ) (q.2 : ℤ) = true →
      truthy vis (pixIdx w (q.1 : ℤ) (q.2 : ℤ)) = false →
      acc.length < (scanLoop bin w h fuel l vis acc).1.length := by
  intro l
  induction l with
  | nil => intro vis acc q hq; exact absurd hq (List.not_mem_nil q)
  | cons r rest ih =>
    intro vis acc q hq hbor hunv
    rw [scanLoop_cons]
    by_cases hg : (isBorderPixel bin w h (r.1 : ℤ) (r.2 : ℤ) &&
        !truthy vis (pixIdx w (r.1 : ℤ) (r.2 : ℤ))) = true
    · rw [if_pos hg]
      have h1 := scanLoop_length_le bin w h fuel rest
        (traceContour bin w h fuel (r.1 : ℤ) (r.2 : ℤ) vis).2
        (acc ++ [(traceContour bin w h fuel (r.1 : ℤ) (r.2 : ℤ) vis).1])
      have h2 : acc.length <
          (acc ++ [(traceContour bin w h fuel (r.1 : ℤ) (r.2 : ℤ) vis).1]).length := by
        simp
      omega
    · rw [if_neg hg]
      rcases List.mem_cons.mp hq with rfl | hq2
      · exfalso
        apply hg
        rw [Bool.and_eq_true, Bool.not_eq_true']
        exact ⟨hbor, hunv⟩
      · exact ih vis acc q hq2 hbor hunv

/-- The scan result is independent of the trace fuel once the fuel
exceeds the pixel count: termination of `findContours` as a whole. -/
theorem scanLoop_fuel_irrel (bin : List ℕ) (w h : ℕ) :
    ∀ (l : List (ℕ × ℕ)) (f1 f2 : ℕ) (vis : List ℕ) (acc : List ContourData),
      vis.length = w * h → w * h < f1 → w * h < f2 →
      scanLoop bin w h f1 l vis acc = scanLoop bin w h f2 l vis acc := by
  intro l
  induction l with
  | nil => intro f1 f2 vis acc _ _ _; rfl
  | cons q rest ih =>
    intro f1 f2 vis acc hlen h1 h2
    rw [scanLoop_cons, scanLoop_cons]
    by_cases hg : (isBorderPixel bin w h (q.1 : ℤ) (q.2 : ℤ) &&
        !truthy vis (pixIdx w (q.1 : ℤ) (q.2 : ℤ))) = true
    · rw [if_pos hg, if_pos hg]
      rw [Bool.and_eq_true, Bool.not_eq_true'] at hg
      obtain ⟨hbor, hunv⟩ := hg
      have hfree1 : freeCount vis < f1 :=
        lt_of_le_of_lt (le_trans (freeCount_le vis) (le_of_eq hlen)) h1
      have hfree2 : freeCount vis < f2 :=
        lt_of_le_of_lt (le_trans (freeCount_le vis) (le_of_eq hlen)) h2
      have htr : traceContour bin w h f1 (q.1 : ℤ) (q.2 : ℤ) vis =
          traceContour bin w h f2 (q.1 : ℤ) (q.2 : ℤ) vis := by
        unfold traceContour
        rw [traceLoop_fuel_irrel bin w h (q.1 : ℤ) (q.2 : ℤ) f1 f2 (q.1 : ℤ)
          (q.2 : ℤ) 0 [] vis hlen hbor hunv hfree1 hfree2]
      rw [htr]
      obtain ⟨c, vis1, heqc, _, _, _, _, _, hlen1, _⟩ :=
        traceContour_spec bin w h f2 (q.1 : ℤ) (q.2 : ℤ) vis hlen hbor hunv hfree2
      rw [heqc]
      exact ih f1 f2 vis1 (acc ++ [c]) (hlen1.trans hlen) h1 h2
    · rw [if_neg hg, if_neg hg]
      exact ih f1 f2 vis acc hlen h1 h2

/-- `List.range` split into a prefix and a shifted suffix. -/
theorem range_split (a : ℕ) :
    ∀ b : ℕ, List.range (a + b) = List.range a ++ (List.range b).map (a + ·) := by
  intro b
  induction b with
  | zero => simp
  | succ m ih =>
    rw [show a + (m + 1) = (a + m) + 1 by omega, List.range_succ, ih,
      List.range_succ, List.map_append, List.append_assoc]
    rfl

/-- Generic `flatMap` over a mapped list. -/
theorem flatMap_map_general {α β γ : Type} (f : α → β) (g : β → List γ) :
    ∀ l : List α, (l.map f).flatMap g = l.flatMap fun a => g (f a) := by
  intro l
  induction l with
  | nil => rfl
  | cons a t ih => simp [ih]

/-- The row-major scan order split at row `k`. -/
theorem rowMajor_split {w h k : ℕ} (hk : k ≤ h) :
    rowMajor w h = rowMajor w k ++
      (List.range (h - k)).flatMap fun r => (List.range w).map fun x => (x, k + r) := by
  obtain ⟨m, rfl⟩ : ∃ m, h = k + m := ⟨h - k, by omega⟩
  unfold rowMajor
  rw [range_split k m, List.flatMap_append,
    flatMap_map_general (k + ·) (fun y => (List.range w).map fun x => (x, y))]
  congr 1
  simp [Nat.add_sub_cancel_left]

/-! ## Derived facts about `findContours` on well-formed masks -/

/-- Instantiation of the scan master invariant at the top level of
`findContours` for a well-formed mask. -/
theorem findContours_props (bin : List ℕ) (w h : ℕ) (hwf : bin.length = w * h) :
    (∀ c ∈ findContours bin w h, c.points ≠ [] ∧ c.points.Nodup ∧
      List.Chain' StepAdj c.points ∧
      (∃ q ∈ rowMajor w h, c.points.head? = some ⟨(q.1 : ℤ), (q.2 : ℤ)⟩) ∧
      (∀ p ∈ c.points, isBorderPixel bin w h p.x p.y = true)) ∧
    List.Pairwise PtsDisj (findContours bin w h) := by
  obtain ⟨newcs, vis2, heq, _, _, _, hprops, hpair⟩ :=
    scanLoop_master bin w h (bin.length + 1) (rowMajor w h)
      (List.replicate bin.length 0) []
      (by simp [hwf]) (by omega) (by simp) List.Pairwise.nil
  have hfc : findContours bin w h = newcs := by
    unfold findContours findContoursFuel
    rw [heq]
    simp
  rw [hfc]
  constructor
  · intro c hc
    obtain ⟨h1, h2, h3, h4, h5⟩ := hprops c hc
    exact ⟨h1, h2, h3, h4, fun p hp => (h5 p hp).1⟩
  · simpa using hpair

/-! ## Concrete masks used by the claims -/

/-- A 13×13 mask whose foreground is the filled 11×11 pixel square with
corners (1,1)–(11,11): a perfect filled square of radius 5 pixels around
its centre (6,6), with a one-pixel background margin. -/
def squareMask : List ℕ :=
  (List.range 169).map fun i =>
    if 1 ≤ i % 13 ∧ i % 13 ≤ 11 ∧ 1 ≤ i / 13 ∧ i / 13 ≤ 11 then 255 else 0

/-- A 3×3 mask containing a single-pixel foreground island at (1,1). -/
def islandMask : List ℕ := [0, 0, 0, 0, 255, 0, 0, 0, 0]

/-- A 2×2 mask that is entirely foreground (every pixel touches the
image edge, none has an in-bounds background neighbour). -/
def allForeground : List ℕ := [255, 255, 255, 255]

/-- A 1×5 mask with two disjoint single-pixel blobs, one at (0,0)
entirely above the other at (0,3). -/
def twoBlobMask : List ℕ := [255, 0, 0, 255, 0]

/-! ## Claim C1 -/

set_option maxRecDepth 1000000 in
/-- C1: evaluating `findContours` on the perfect filled-square mask of
radius 5.  The trace walks the full 40-pixel boundary as a single
contour, but `closed` is `false`, NOT `true` as the claim and the spec
require: the very first loop iteration marks the start pixel visited and
every move is restricted to unvisited pixels, so the `while (x !== startX
|| y !== startY)` exit — the only way `closed` can become true after a
move — is unreachable, and the trace always ends with the "no neighbour
found" break at a pixel different from the start. -/
theorem c1_filled_square_closed_false :
    (findContours squareMask 13 13).map (fun c => (c.points.length, c.closed)) =
      [(40, false)] := by
  decide

/-! ## Claim C2 -/

/-- The seed/border predicate as the claim words it (spec §4.4): a
FOREGROUND pixel that has at least one in-bounds 4-connected BACKGROUND
neighbour OR lies adjacent to the image edge treated as background. -/
def specSeedBorder (bin : List ℕ) (w h : ℕ) (x y : ℤ) : Bool :=
  inB w h x y && !bufIsZero bin (pixIdx w x y) &&
    (neighbors4.any (fun d =>
        inB w h (x + d.1) (y + d.2) &&
          bufIsZero bin (pixIdx w (x + d.1) (y + d.2))) ||
      neighbors4.any fun d => !inB w h (x + d.1) (y + d.2))

/-- C2 counterexample: on the all-foreground 2×2 mask, pixel (0,0) is
FOREGROUND, unvisited, and adjacent to the image edge, so by the claim
it must be selected as a seed; but `findContours` returns no contour at
all — the code never treats the image edge as background. -/
theorem c2_counterexample :
    findContours allForeground 2 2 = [] ∧
    specSeedBorder allForeground 2 2 0 0 = true := by
  constructor
  · decide
  · decide

/-- C2 amended: a pixel is a border pixel (and hence a seed when also
unvisited) iff it is in bounds, FOREGROUND, and has at least one
in-bounds 4-connected BACKGROUND neighbour; adjacency to the image edge
plays no role.  Moreover every contour returned on a well-formed mask
starts at such a pixel. -/
theorem c2_seed_characterization :
    (∀ (bin : List ℕ) (w h : ℕ) (x y : ℤ),
      isBorderPixel bin w h x y = true ↔
        inB w h x y = true ∧ bufIsZero bin (pixIdx w x y) = false ∧
        ∃ d ∈ neighbors4, inB w h (x + d.1) (y + d.2) = true ∧
          bufIsZero bin (pixIdx w (x + d.1) (y + d.2)) = true) ∧
    (∀ (bin : List ℕ) (w h : ℕ), bin.length = w * h →
      ∀ c ∈ findContours bin w h, ∃ p, c.points.head? = some p ∧
        isBorderPixel bin w h p.x p.y = true) := by
  constructor
  · intro bin w h x y
    exact isBorderPixel_iff
  · intro bin w h hwf c hc
    obtain ⟨hne, _, _, ⟨q, _, hhead⟩, hall⟩ := (findContours_props bin w h hwf).1 c hc
    refine ⟨⟨(q.1 : ℤ), (q.2 : ℤ)⟩, hhead, ?_⟩
    have hmem : (⟨(q.1 : ℤ), (q.2 : ℤ)⟩ : ContourPoint) ∈ c.points :=
      List.mem_of_mem_head? hhead
    exact hall _ hmem

/-- C2 amended, witness: on the island mask the single returned contour
starts at the border pixel (1,1), and the characterisation holds there. -/
theorem c2_seed_characterization_witness :
    (isBorderPixel islandMask 3 3 1 1 = true ↔
      inB 3 3 1 1 = true ∧ bufIsZero islandMask (pixIdx 3 1 1) = false ∧
      ∃ d ∈ neighbors4, inB 3 3 (1 + d.1) (1 + d.2) = true ∧
        bufIsZero islandMask (pixIdx 3 (1 + d.1) (1 + d.2)) = true) ∧
    (∃ p, (⟨[⟨1, 1⟩], true⟩ : ContourData).points.head? = some p ∧
      isBorderPixel islandMask 3 3 p.x p.y = true) := by
  constructor
  · exact c2_seed_characterization.1 islandMask 3 3 1 1
  · exact c2_seed_characterization.2 islandMask 3 3 (by decide)
      ⟨[⟨1, 1⟩], true⟩ (by decide)

/-! ## Claim C5 -/

/-- Modelled from the spec: `findContours` with the fail-fast dimension
check the spec requires ("malformed mask dimensions (mismatched buffer
length) is a programmer error — fail fast with a descriptive error").
This validation is absent from `src/utils/contourUtils.ts`. -/
def findContoursChecked (bin : List ℕ) (w h : ℕ) :
    Except String (List ContourData) :=
  if bin.length ≠ w * h then
    Except.error "mask buffer length does not equal width * height"
  else
    Except.ok (findContours bin w h)

/-- C5 counterexample: a buffer of length 1 declared as a 2×1 mask is
processed silently — `findContours` returns the ordinary value `[]`
instead of failing fast (the code has no validation and no error path),
while the spec-mandated checked variant rejects the same input. -/
theorem c5_counterexample :
    findContours [255] 2 1 = [] ∧
    findContoursChecked [255] 2 1 =
      Except.error "mask buffer length does not equal width * height" := by
  constructor
  · decide
  · rfl

/-- C5 amended: the tracer performs no dimension validation; a mask with
mismatched buffer length is processed silently and yields an ordinary
contour list (out-of-range reads behave as `undefined`, which is never
equal to the background sentinel), whereas the spec-modelled checked
variant rejects every such mask. -/
theorem c5_no_validation :
    (∀ (bin : List ℕ) (w h : ℕ), bin.length ≠ w * h →
      findContoursChecked bin w h =
        Except.error "mask buffer length does not equal width * height") ∧
    findContours [255] 2 1 = [] := by
  constructor
  · intro bin w h hne
    unfold findContoursChecked
    rw [if_pos hne]
  · decide

/-- C5 amended, witness. -/
theorem c5_no_validation_witness :
    findContoursChecked [255] 2 1 =
      Except.error "mask buffer length does not equal width * height" :=
  c5_no_validation.1 [255] 2 1 (by decide)

/-! ## Claim C9 -/

/-- C9: `findContours` terminates on every well-formed mask — the result
is independent of the trace fuel once it exceeds the buffer length,
because every loop iteration claims a previously unvisited pixel; and a
single-pixel foreground island deterministically yields the trivial
1-point closed contour (it is a border pixel, and its trace stops
immediately). -/
theorem c9_termination :
    (∀ (bin : List ℕ) (w h : ℕ), bin.length = w * h →
      ∀ fuel : ℕ, bin.length < fuel →
        findContoursFuel fuel bin w h = findContours bin w h) ∧
    findContours islandMask 3 3 = [⟨[⟨1, 1⟩], true⟩] := by
  constructor
  · intro bin w h hwf fuel hfuel
    unfold findContours findContoursFuel
    rw [scanLoop_fuel_irrel bin w h (rowMajor w h) fuel (bin.length + 1)
      (List.replicate bin.length 0) [] (by simp [hwf]) (by omega) (by omega)]
  · decide

/-- C9 witness: the island mask computed with a much larger fuel gives
the same result. -/
theorem c9_termination_witness :
    findContoursFuel 1000 islandMask 3 3 = findContours islandMask 3 3 :=
  c9_termination.1 islandMask 3 3 (by decide) 1000 (by decide)

/-! ## Claim C10 -/

/-- C10: on every well-formed mask the returned contours are pairwise
disjoint as point sets, and no point repeats inside a single contour:
the tracer only ever moves to pixels not yet marked in the scan-global
visited buffer. -/
theorem c10_contours_disjoint_nodup :
    ∀ (bin : List ℕ) (w h : ℕ), bin.length = w * h →
      List.Pairwise PtsDisj (findContours bin w h) ∧
      ∀ c ∈ findContours bin w h, c.points.Nodup := by
  intro bin w h hwf
  obtain ⟨hprops, hpair⟩ := findContours_props bin w h hwf
  exact ⟨hpair, fun c hc => (hprops c hc).2.1⟩

/-- C10 witness: instantiated on the two-blob mask. -/
theorem c10_contours_disjoint_nodup_witness :
    List.Pairwise PtsDisj (findContours twoBlobMask 1 5) ∧
    ∀ c ∈ findContours twoBlobMask 1 5, c.points.Nodup :=
  c10_contours_disjoint_nodup twoBlobMask 1 5 (by decide)

/-! ## Claim C8: machinery -/

theorem coords_toNat {w h : ℕ} {x y : ℤ} (hb : inB w h x y = true) :
    ((x.toNat : ℤ) = x ∧ (y.toNat : ℤ) = y) ∧ x.toNat < w ∧ y.toNat < h ∧
    pixIdx w x y = y.toNat * w + x.toNat := by
  rcases inB_iff.mp hb with ⟨hx0, hxw, hy0, hyh⟩
  have hx : (x.toNat : ℤ) = x := Int.toNat_of_nonneg hx0
  have hy : (y.toNat : ℤ) = y := Int.toNat_of_nonneg hy0
  refine ⟨⟨hx, hy⟩, by omega, by omega, ?_⟩
  have hrw : pixIdx w x y = pixIdx w (x.toNat : ℤ) (y.toNat : ℤ) := by
    rw [hx, hy]
  rw [hrw, pixIdx_natCast]

theorem directions_neg {d : ℤ × ℤ} (hd : d ∈ directions) :
    ((-d.1, -d.2) : ℤ × ℤ) ∈ directions := by
  simp only [directions, List.mem_cons, List.not_mem_nil, or_false] at hd ⊢
  rcases hd with rfl | rfl | rfl | rfl <;> simp

theorem mem_rowMajor {w h : ℕ} {q : ℕ × ℕ} :
    q ∈ rowMajor w h ↔ q.1 < w ∧ q.2 < h := by
  unfold rowMajor
  simp only [List.mem_flatMap, List.mem_map, List.mem_range]
  constructor
  · rintro ⟨y, hy, x, hx, rfl⟩
    exact ⟨hx, hy⟩
  · rintro ⟨h1, h2⟩
    exact ⟨q.2, h2, q.1, h1, rfl⟩

theorem mem_lowerRows {w h k : ℕ} {q : ℕ × ℕ} :
    (q ∈ (List.range (h - k)).flatMap fun r =>
        (List.range w).map fun x => (x, k + r)) ↔
      q.1 < w ∧ k ≤ q.2 ∧ q.2 < h := by
  simp only [List.mem_flatMap, List.mem_map, List.mem_range]
  constructor
  · rintro ⟨r, hr, x, hx, rfl⟩
    exact ⟨hx, by omega, by omega⟩
  · rintro ⟨h1, h2, h3⟩
    exact ⟨q.2 - k, by omega, q.1, h1, by
      have : k + (q.2 - k) = q.2 := by omega
      rw [this]⟩

/-- Points reached along a step-adjacent chain of border pixels stay in
any set containing the head and closed under foreground adjacency. -/
theorem chain_containment (bin : List ℕ) (w h : ℕ) (S : ContourPoint → Prop)
    (hclosure : ∀ p q : ContourPoint, S p → StepAdj p q →
      isBorderPixel bin w h q.x q.y = true → S q) :
    ∀ l : List ContourPoint, List.Chain' StepAdj l →
      (∀ p ∈ l, isBorderPixel bin w h p.x p.y = true) →
      (∀ p, l.head? = some p → S p) →
      ∀ p ∈ l, S p := by
  intro l
  induction l with
  | nil => intro _ _ _ p hp; exact absurd hp (List.not_mem_nil p)
  | cons a t ih =>
    intro hchain hborder hhead p hp
    have hSa : S a := hhead a rfl
    rcases List.mem_cons.mp hp with rfl | hp2
    · exact hSa
    · rw [List.chain'_cons'] at hchain
      obtain ⟨hrel, hchain2⟩ := hchain
      refine ih hchain2 (fun r hr => hborder r (List.mem_cons_of_mem _ hr)) ?_ p hp2
      intro q hq
      have hadj : StepAdj a q := hrel q (Option.mem_def.mpr hq)
      have hqmem : q ∈ t := List.mem_of_mem_head? (Option.mem_def.mpr hq)
      have hqb : isBorderPixel bin w h q.x q.y = true :=
        hborder q (List.mem_cons_of_mem _ hqmem)
      exact hclosure a q hSa hadj hqb

/-- C8: for every well-formed binary mask whose foreground is exactly
the union of two non-adjacent blobs `A` and `B`, with all of `A` strictly
above row `k` and all of `B` at or below row `k` (so `A` lies entirely
above `B`), and each blob containing at least one border pixel,
`findContours` returns first the contours of `A` (all their points in
`A`) and then the contours of `B`, each group nonempty: the upper blob's
contour precedes the lower blob's, in row-major seed-discovery order. -/
theorem c8_seed_ordering
    (bin : List ℕ) (w h k : ℕ) (A B : Finset (ℤ × ℤ))
    (hwf : bin.length = w * h)
    (hfg : ∀ x : ℕ, x < w → ∀ y : ℕ, y < h →
      (bufIsZero bin (y * w + x) = false ↔ ((x : ℤ), (y : ℤ)) ∈ A ∪ B))
    (hAk : ∀ p ∈ A, p.2 < (k : ℤ))
    (hBk : ∀ q ∈ B, (k : ℤ) ≤ q.2)
    (hsep : ∀ p ∈ A, ∀ q ∈ B, ∀ d ∈ directions,
      ¬(q.1 = p.1 + d.1 ∧ q.2 = p.2 + d.2))
    (hAseed : ∃ p ∈ A, isBorderPixel bin w h p.1 p.2 = true)
    (hBseed : ∃ q ∈ B, isBorderPixel bin w h q.1 q.2 = true) :
    ∃ la lb, findContours bin w h = la ++ lb ∧ la ≠ [] ∧ lb ≠ [] ∧
      (∀ c ∈ la, ∀ p ∈ c.points, (p.x, p.y) ∈ A) ∧
      (∀ c ∈ lb, ∀ p ∈ c.points, (p.x, p.y) ∈ B) := by
  obtain ⟨pa, hpaA, hpaBor⟩ := hAseed
  obtain ⟨qb, hqbB, hqbBor⟩ := hBseed
  have hpaIn := isBorder_inB hpaBor
  have hqbIn := isBorder_inB hqbBor
  obtain ⟨⟨hpx, hpy⟩, hpxw, hpyh, hppix⟩ := coords_toNat hpaIn
  obtain ⟨⟨hqx, hqy⟩, hqxw, hqyh, hqpix⟩ := coords_toNat hqbIn
  have hpak := hAk pa hpaA
  have hqbk := hBk qb hqbB
  have hkh : k ≤ h := by omega
  have hsplit := rowMajor_split (w := w) hkh
  obtain ⟨la, v1, heq1, hlen1, hmono1, hrev1, hprops1, hpair1⟩ :=
    scanLoop_master bin w h (bin.length + 1) (rowMajor w k)
      (List.replicate bin.length 0) [] (by simp [hwf]) (by omega) (by simp)
      List.Pairwise.nil
  rw [List.nil_append] at heq1
  have hApts : ∀ c ∈ la, ∀ p ∈ c.points, (p.x, p.y) ∈ A := by
    intro c hc p hp
    obtain ⟨hne, hnd, hchain, ⟨q, hqmem, hhead⟩, hborder⟩ := hprops1 c hc
    have hqlt : q.1 < w ∧ q.2 < k := mem_rowMajor.mp hqmem
    refine chain_containment bin w h (fun r => (r.x, r.y) ∈ A) ?_ c.points hchain
      (fun r hr => (hborder r hr).1) ?_ p hp
    · intro p1 q1 hS hadj hqb1
      have hq1In := isBorder_inB hqb1
      obtain ⟨⟨hx1, hy1⟩, hxw1, hyh1, hpix1⟩ := coords_toNat hq1In
      have hnz := isBorder_notZero hqb1
      rw [hpix1] at hnz
      have hAB := (hfg q1.x.toNat hxw1 q1.y.toNat hyh1).mp hnz
      rw [hx1, hy1] at hAB
      rcases Finset.mem_union.mp hAB with hInA | hInB
      · exact hInA
      · exfalso
        obtain ⟨d, hd, hdx, hdy⟩ := hadj
        exact hsep (p1.x, p1.y) hS (q1.x, q1.y) hInB d hd ⟨hdx, hdy⟩
    · intro r hrh
      rw [hhead] at hrh
      obtain rfl := Option.some_inj.mp hrh
      have hcb : isBorderPixel bin w h (q.1 : ℤ) (q.2 : ℤ) = true :=
        (hborder _ (List.mem_of_mem_head? (Option.mem_def.mpr hhead))).1
      have hnz := isBorder_notZero hcb
      rw [pixIdx_natCast] at hnz
      have hAB := (hfg q.1 hqlt.1 q.2 (by omega)).mp hnz
      rcases Finset.mem_union.mp hAB with hInA | hInB
      · exact hInA
      · exfalso
        have h1 := hBk _ hInB
        have h2 : ((q.2 : ℤ)) < (k : ℤ) := by exact_mod_cast hqlt.2
        simp only at h1
        omega
  have hfc : findContours bin w h =
      (scanLoop bin w h (bin.length + 1)
        ((List.range (h - k)).flatMap fun r =>
          (List.range w).map fun x => (x, k + r)) v1 la).1 := by
    unfold findContours findContoursFuel
    rw [hsplit, scanLoop_append, heq1]
  have haccla : ∀ c ∈ la, ∀ p ∈ c.points, inB w h p.x p.y = true ∧
      truthy v1 (pixIdx w p.x p.y) = true := by
    intro c hc p hp
    obtain ⟨_, _, _, _, hborder⟩ := hprops1 c hc
    exact ⟨isBorder_inB (hborder p hp).1, (hborder p hp).2⟩
  obtain ⟨lb, v2, heq2, hlen2, hmono2, hrev2, hprops2, hpair2⟩ :=
    scanLoop_master bin w h (bin.length + 1)
      ((List.range (h - k)).flatMap fun r => (List.range w).map fun x => (x, k + r))
      v1 la (hlen1.trans (by simp [hwf])) (by omega) haccla
      (by simpa using hpair1)
  refine ⟨la, lb, ?_, ?_, ?_, hApts, ?_⟩
  · rw [hfc, heq2]
  · intro hnil
    have hprog := scanLoop_progress bin w h (bin.length + 1) (rowMajor w k)
      (List.replicate bin.length 0) [] (pa.1.toNat, pa.2.toNat)
      (mem_rowMajor.mpr ⟨hpxw, by omega⟩)
      (by
        show isBorderPixel bin w h (pa.1.toNat : ℤ) (pa.2.toNat : ℤ) = true
        rw [hpx, hpy]
        exact hpaBor)
      (truthy_replicate _ _)
    rw [heq1] at hprog
    simp [hnil] at hprog
  · intro hnil
    have hunv1 : truthy v1 (pixIdx w qb.1 qb.2) = false := by
      by_contra hc
      rw [Bool.not_eq_false] at hc
      rcases hrev1 _ hc with hv0 | ⟨c, hc1, p, hp, hpi⟩
      · rw [truthy_replicate] at hv0
        exact Bool.false_ne_true hv0
      · have hpA : (p.x, p.y) ∈ A := hApts c hc1 p hp
        obtain ⟨_, _, _, _, hborder⟩ := hprops1 c hc1
        have hpIn := isBorder_inB (hborder p hp).1
        obtain ⟨hxe, hye⟩ := pixIdx_inj hpIn hqbIn hpi
        rw [hxe, hye] at hpA
        have h1 := hAk _ hpA
        simp only at h1
        omega
    have hprog := scanLoop_progress bin w h (bin.length + 1)
      ((List.range (h - k)).flatMap fun r => (List.range w).map fun x => (x, k + r))
      v1 la (qb.1.toNat, qb.2.toNat)
      (mem_lowerRows.mpr ⟨hqxw, by omega, hqyh⟩)
      (by
        show isBorderPixel bin w h (qb.1.toNat : ℤ) (qb.2.toNat : ℤ) = true
        rw [hqx, hqy]
        exact hqbBor)
      (by
        show truthy v1 (pixIdx w (qb.1.toNat : ℤ) (qb.2.toNat : ℤ)) = false
        rw [hqx, hqy]
        exact hunv1)
    rw [heq2] at hprog
    simp [hnil] at hprog
  · intro c hc p hp
    obtain ⟨hne, hnd, hchain, ⟨q, hqmem, hhead⟩, hborder⟩ := hprops2 c hc
    obtain ⟨hq1w, hq2k, hq2h⟩ := mem_lowerRows.mp hqmem
    refine chain_containment bin w h (fun r => (r.x, r.y) ∈ B) ?_ c.points hchain
      (fun r hr => (hborder r hr).1) ?_ p hp
    · intro p1 q1 hS hadj hqb1
      have hq1In := isBorder_inB hqb1
      obtain ⟨⟨hx1, hy1⟩, hxw1, hyh1, hpix1⟩ := coords_toNat hq1In
      have hnz := isBorder_notZero hqb1
      rw [hpix1] at hnz
      have hAB := (hfg q1.x.toNat hxw1 q1.y.toNat hyh1).mp hnz
      rw [hx1, hy1] at hAB
      rcases Finset.mem_union.mp hAB with hInA | hInB
      · exfalso
        obtain ⟨d, hd, hdx, hdy⟩ := hadj
        refine hsep (q1.x, q1.y) hInA (p1.x, p1.y) hS (-d.1, -d.2)
          (directions_neg hd) ⟨?_, ?_⟩
        · simp only
          omega
        · simp only
          omega
      · exact hInB
    · intro r hrh
      rw [hhead] at hrh
      obtain rfl := Option.some_inj.mp hrh
      have hcb : isBorderPixel bin w h (q.1 : ℤ) (q.2 : ℤ) = true :=
        (hborder _ (List.mem_of_mem_head? (Option.mem_def.mpr hhead))).1
      have hnz := isBorder_notZero hcb
      rw [pixIdx_natCast] at hnz
      have hAB := (hfg q.1 hq1w q.2 hq2h).mp hnz
      rcases Finset.mem_union.mp hAB with hInA | hInB
      · exfalso
        have h1 := hAk _ hInA
        simp only at h1
        omega
      · exact hInB

/-- C8 witness: the 1×5 mask with single-pixel blobs at (0,0) and (0,3),
split at row 2. -/
theorem c8_seed_ordering_witness :
    ∃ la lb, findContours twoBlobMask 1 5 = la ++ lb ∧ la ≠ [] ∧ lb ≠ [] ∧
      (∀ c ∈ la, ∀ p ∈ c.points, (p.x, p.y) ∈ ({((0 : ℤ), (0 : ℤ))} : Finset (ℤ × ℤ))) ∧
      (∀ c ∈ lb, ∀ p ∈ c.points, (p.x, p.y) ∈ ({((0 : ℤ), (3 : ℤ))} : Finset (ℤ × ℤ))) := by
  refine c8_seed_ordering twoBlobMask 1 5 2 {((0 : ℤ), (0 : ℤ))} {((0 : ℤ), (3 : ℤ))}
    (by decide) ?_ (by decide) (by decide) (by decide) ?_ ?_
  · decide
  · exact ⟨((0 : ℤ), (0 : ℤ)), by decide, by decide⟩
  · exact ⟨((0 : ℤ), (3 : ℤ)), by decide, by decide⟩

/-! ## Claim C4 -/

/-- The 6×6 grayscale image of the binarisation-polarity scenario: a 2×2
black square (luminance 0) at columns/rows 2–3 on a white (255)
background. -/
def blackSquareGray : List ℕ :=
  (List.range 36).map fun i =>
    if (i % 6 = 2 ∨ i % 6 = 3) ∧ (i / 6 = 2 ∨ i / 6 = 3) then 0 else 255

/-- C4: `applyThreshold` maps every pixel to exactly one of the two
sentinels — `pixel > threshold` to 255 and everything else to 0 — with
the fixed polarity matching the tracer: an output pixel is the tracer's
BACKGROUND (`bufIsZero` true) exactly when the input is ≤ threshold.  On
the black-square-on-white image at threshold 128, the square pixels
classify as 0 (BACKGROUND) and the white background as 255 (FOREGROUND):
the documented fixed complement the claim allows. -/
theorem c4_threshold_polarity :
    (∀ (g : List ℕ) (t i : ℕ), i < g.length →
      (applyThreshold g t).getD i 0 = if g.getD i 0 > t then 255 else 0) ∧
    (∀ (g : List ℕ) (t : ℕ), ∀ v ∈ applyThreshold g t, v = 255 ∨ v = 0) ∧
    (∀ (g : List ℕ) (t i : ℕ), i < g.length →
      (bufIsZero (applyThreshold g t) i = true ↔ g.getD i 0 ≤ t)) ∧
    applyThreshold blackSquareGray 128 = blackSquareGray := by
  refine ⟨?_, ?_, ?_, by decide⟩
  · intro g t i hi
    unfold applyThreshold
    rw [List.getD_eq_getElem _ _ (by simpa using hi), List.getElem_map,
      List.getD_eq_getElem _ _ hi]
  · intro g t v hv
    unfold applyThreshold at hv
    rw [List.mem_map] at hv
    obtain ⟨a, _, rfl⟩ := hv
    by_cases hgt : a > t
    · left; rw [if_pos hgt]
    · right; rw [if_neg hgt]
  · intro g t i hi
    unfold bufIsZero applyThreshold
    rw [List.getD_eq_getElem _ _ (by simpa using hi), List.getElem_map]
    by_cases hgt : g[i] > t
    · rw [if_pos hgt]
      rw [List.getD_eq_getElem _ _ hi]
      simp
      omega
    · rw [if_neg hgt]
      rw [List.getD_eq_getElem _ _ hi]
      simp
      omega

/-- C4 witness: the general clauses instantiated at pixel 0 of the
black-square scenario. -/
theorem c4_threshold_polarity_witness :
    ((applyThreshold blackSquareGray 128).getD 0 0 =
      if blackSquareGray.getD 0 0 > 128 then 255 else 0) ∧
    (bufIsZero (applyThreshold blackSquareGray 128) 0 = true ↔
      blackSquareGray.getD 0 0 ≤ 128) :=
  ⟨c4_threshold_polarity.1 blackSquareGray 128 0 (by decide),
   c4_threshold_polarity.2.2.1 blackSquareGray 128 0 (by decide)⟩

/-! ## Claim C3 -/

/-- The four direction sectors of non-maximum suppression. -/
inductive GradSector
  | horizontal
  | diag45
  | vertical
  | diag135
deriving DecidableEq

/-- The non-maximum-suppression loop body of `applyCannyEdgeDetection`
(`ImageProcessor.tsx` lines 953–984): `degree` stands for
`((angle * 180) / Math.PI) % 180` — a JavaScript remainder, which is
negative whenever `atan2` returned a negative angle — and `mag` is the
magnitude grid indexed by `y*width+x`.  The pixel keeps its magnitude
exactly when it is ≥ both neighbours selected by the direction test
chain, else it is zeroed. -/
def nmsPixel (mag : ℕ → ℚ) (width idx : ℕ) (degree : ℚ) : ℚ :=
  let magnitude := mag idx
  if (0 ≤ degree ∧ degree < 22.5) ∨ (157.5 ≤ degree ∧ degree < 180) then
    (if mag (idx - 1) ≤ magnitude ∧ mag (idx + 1) ≤ magnitude then magnitude
     else 0)
  else if 22.5 ≤ degree ∧ degree < 67.5 then
    (if mag (idx - width - 1) ≤ magnitude ∧ mag (idx + width + 1) ≤ magnitude
     then magnitude else 0)
  else if 67.5 ≤ degree ∧ degree < 112.5 then
    (if mag (idx - width) ≤ magnitude ∧ mag (idx + width) ≤ magnitude
     then magnitude else 0)
  else
    (if mag (idx - width + 1) ≤ magnitude ∧ mag (idx + width - 1) ≤ magnitude
     then magnitude else 0)

/-- The claim-side quantisation of the gradient direction into exactly
four sectors, following the source's comparison chain; the final `else`
catches everything not matched earlier, including all negative
remainders. -/
def quantizeSector (degree : ℚ) : GradSector :=
  if (0 ≤ degree ∧ degree < 22.5) ∨ (157.5 ≤ degree ∧ degree < 180) then
    GradSector.horizontal
  else if 22.5 ≤ degree ∧ degree < 67.5 then GradSector.diag45
  else if 67.5 ≤ degree ∧ degree < 112.5 then GradSector.vertical
  else GradSector.diag135

/-- The two neighbour indices along each quantised direction. -/
def sectorNeighbors : GradSector → ℕ → ℕ → ℕ × ℕ
  | GradSector.horizontal, _, idx => (idx - 1, idx + 1)
  | GradSector.diag45, width, idx => (idx - width - 1, idx + width + 1)
  | GradSector.vertical, width, idx => (idx - width, idx + width)
  | GradSector.diag135, width, idx => (idx - width + 1, idx + width - 1)

/-- C3: the non-maximum-suppression body always quantises the direction
remainder into exactly one of the four sectors and compares the pixel's
magnitude against the two neighbours along that quantised direction,
zeroing non-maxima; the interval `[0,22.5) ∪ [157.5,180)` maps to the
horizontal sector; and the quantisation is total over every possible
remainder of an `atan2` output — negative remainders all fall into the
final (135°) sector rather than being left unhandled. -/
theorem c3_nms_quantization :
    (∀ (mag : ℕ → ℚ) (width idx : ℕ) (degree : ℚ),
      nmsPixel mag width idx degree =
        if mag (sectorNeighbors (quantizeSector degree) width idx).1 ≤ mag idx ∧
            mag (sectorNeighbors (quantizeSector degree) width idx).2 ≤ mag idx
        then mag idx else 0) ∧
    (∀ degree : ℚ,
      ((0 ≤ degree ∧ degree < 22.5) ∨ (157.5 ≤ degree ∧ degree < 180)) →
      quantizeSector degree = GradSector.horizontal) ∧
    (∀ degree : ℚ, degree < 0 → quantizeSector degree = GradSector.diag135) := by
  refine ⟨?_, ?_, ?_⟩
  · intro mag width idx degree
    unfold nmsPixel quantizeSector
    by_cases h1 : (0 ≤ degree ∧ degree < 22.5) ∨ (157.5 ≤ degree ∧ degree < 180)
    · rw [if_pos h1, if_pos h1]
      rfl
    · rw [if_neg h1, if_neg h1]
      by_cases h2 : 22.5 ≤ degree ∧ degree < 67.5
      · rw [if_pos h2, if_pos h2]
        rfl
      · rw [if_neg h2, if_neg h2]
        by_cases h3 : 67.5 ≤ degree ∧ degree < 112.5
        · rw [if_pos h3, if_pos h3]
          rfl
        · rw [if_neg h3, if_neg h3]
          rfl
  · intro degree hd
    unfold quantizeSector
    rw [if_pos hd]
  · intro degree hneg
    unfold quantizeSector
    rw [if_neg, if_neg, if_neg]
    · rintro ⟨h1, _⟩
      linarith
    · rintro ⟨h1, _⟩
      linarith
    · rintro (⟨h1, _⟩ | ⟨h1, _⟩) <;> linarith

/-- C3 witness: the negative remainder −90 (a vertical gradient whose
`atan2` angle is −π/2) is quantised — into the 135° sector. -/
theorem c3_nms_quantization_witness :
    quantizeSector (-90) = GradSector.diag135 :=
  c3_nms_quantization.2.2 (-90) (by norm_num)

/-! ## Claim C6 -/

/-- The window offsets `-halfBlockSize..halfBlockSize` of
`applyAdaptiveThreshold` (`blockSize = 21`, `halfBlockSize = 10`). -/
def adaptiveWindowOffsets : List ℤ :=
  (List.range 21).map fun i => (i : ℤ) - 10

/-- The local sum/count loop of `applyAdaptiveThreshold`
(`ImageProcessor.tsx` lines 1600–1615): for `dy`, `dx` in `-10..10`,
accumulate the channel-0 value of each in-bounds neighbour
(`data[idx(nx,ny)]` with `idx(x,y) = (y*width+x)*4`) and count it;
out-of-bounds positions contribute to neither. -/
def adaptiveSumCount (data : List ℕ) (w h : ℕ) (x y : ℤ) : ℕ × ℕ :=
  adaptiveWindowOffsets.foldl (fun acc dy =>
    adaptiveWindowOffsets.foldl (fun acc2 dx =>
      if 0 ≤ x + dx ∧ x + dx < (w : ℤ) ∧ 0 ≤ y + dy ∧ y + dy < (h : ℤ) then
        (acc2.1 + data.getD (pixIdx w (x + dx) (y + dy) * 4) 0, acc2.2 + 1)
      else acc2) acc) (0, 0)

/-- One pixel of `applyAdaptiveThreshold`: `mean = sum / count`
(JavaScript real division, modelled exactly in ℚ),
`threshold = mean - C` with `C = 5`, and
`pixelValue = data[idx(x,y)] <= threshold ? 255 : 0`. -/
def adaptivePixel (data : List ℕ) (w h : ℕ) (x y : ℤ) : ℕ :=
  let sc := adaptiveSumCount data w h x y
  let mean : ℚ := (sc.1 : ℚ) / (sc.2 : ℚ)
  let threshold := mean - 5
  if (data.getD (pixIdx w x y * 4) 0 : ℚ) ≤ threshold then 255 else 0

/-- `applyAdaptiveThreshold` (`ImageProcessor.tsx` lines 1588–1631),
expressed pointwise over the zero-initialised output buffer of the
input's length: every channel of pixel `(x, y)` receives
`adaptivePixel`, alpha receives 255; cells beyond the `w*h` pixels that
the loops write keep the zero fill. -/
def applyAdaptiveThreshold (data : List ℕ) (w h : ℕ) : List ℕ :=
  (List.range data.length).map fun i =>
    if i / 4 < w * h then
      (if i % 4 == 3 then 255
       else adaptivePixel data w h (((i / 4) % w : ℕ) : ℤ) (((i / 4) / w : ℕ) : ℤ))
    else 0

/-- The clipped window of the claim: the in-bounds positions of the
21×21 block centred at `(x, y)`. -/
def clippedWindow (w h : ℕ) (x y : ℤ) : List (ℤ × ℤ) :=
  (adaptiveWindowOffsets.flatMap fun dy =>
    adaptiveWindowOffsets.map fun dx => (x + dx, y + dy)).filter fun q =>
      decide (0 ≤ q.1 ∧ q.1 < (w : ℤ) ∧ 0 ≤ q.2 ∧ q.2 < (h : ℤ))

/-- The clipped-window mean of the claim: the sum of the in-bounds
window pixels divided by the count of in-bounds positions only. -/
def clippedMean (data : List ℕ) (w h : ℕ) (x y : ℤ) : ℚ :=
  (((clippedWindow w h x y).map fun q =>
      (data.getD (pixIdx w q.1 q.2 * 4) 0 : ℚ)).sum) /
    ((clippedWindow w h x y).length : ℚ)

theorem foldl_filter_sumcount {α : Type} (f : α → ℕ) (P : α → Prop)
    [DecidablePred P] :
    ∀ (l : List α) (s c : ℕ),
      l.foldl (fun acc a => if P a then (acc.1 + f a, acc.2 + 1) else acc) (s, c) =
        (s + ((l.filter fun a => decide (P a)).map f).sum,
         c + (l.filter fun a => decide (P a)).length) := by
  intro l
  induction l with
  | nil => intro s c; simp
  | cons a t ih =>
    intro s c
    rw [List.foldl_cons]
    by_cases hp : P a
    · rw [if_pos hp, ih, List.filter_cons, if_pos (by simpa using hp)]
      simp only [List.map_cons, List.sum_cons, List.length_cons, Prod.mk.injEq]
      omega
    · rw [if_neg hp, ih, List.filter_cons, if_neg (by simpa using hp)]

theorem nested_foldl_eq_flat {α β : Type} (g : β → List α)
    (F : ℕ × ℕ → α → ℕ × ℕ) :
    ∀ (rows : List β) (init : ℕ × ℕ),
      rows.foldl (fun acc dy => (g dy).foldl F acc) init =
        (rows.flatMap g).foldl F init := by
  intro rows
  induction rows with
  | nil => intro init; rfl
  | cons dy rest ih =>
    intro init
    rw [List.flatMap_cons, List.foldl_append, List.foldl_cons]
    exact ih _

/-- The source's guarded double loop computes exactly the sum over the
clipped window together with the in-bounds count. -/
theorem adaptiveSumCount_eq (data : List ℕ) (w h : ℕ) (x y : ℤ) :
    adaptiveSumCount data w h x y =
      (((clippedWindow w h x y).map fun q =>
          data.getD (pixIdx w q.1 q.2 * 4) 0).sum,
       (clippedWindow w h x y).length) := by
  unfold adaptiveSumCount
  have hstep : ∀ (acc : ℕ × ℕ) (dy : ℤ),
      adaptiveWindowOffsets.foldl (fun acc2 dx =>
        if 0 ≤ x + dx ∧ x + dx < (w : ℤ) ∧ 0 ≤ y + dy ∧ y + dy < (h : ℤ) then
          (acc2.1 + data.getD (pixIdx w (x + dx) (y + dy) * 4) 0, acc2.2 + 1)
        else acc2) acc =
      (adaptiveWindowOffsets.map fun dx => (x + dx, y + dy)).foldl (fun acc2 q =>
        if 0 ≤ q.1 ∧ q.1 < (w : ℤ) ∧ 0 ≤ q.2 ∧ q.2 < (h : ℤ) then
          (acc2.1 + data.getD (pixIdx w q.1 q.2 * 4) 0, acc2.2 + 1)
        else acc2) acc := by
    intro acc dy
    rw [List.foldl_map]
  simp only [hstep]
  rw [nested_foldl_eq_flat
    (fun dy => adaptiveWindowOffsets.map fun dx => (x + dx, y + dy))]
  rw [foldl_filter_sumcount (fun q => data.getD (pixIdx w q.1 q.2 * 4) 0)
    (fun q : ℤ × ℤ => 0 ≤ q.1 ∧ q.1 < (w : ℤ) ∧ 0 ≤ q.2 ∧ q.2 < (h : ℤ))]
  unfold clippedWindow
  simp

theorem pix_mod_div {w x y : ℕ} (hx : x < w) :
    (y * w + x) % w = x ∧ (y * w + x) / w = y := by
  have hw : 0 < w := by omega
  constructor
  · rw [Nat.add_comm, Nat.add_mul_mod_self_right]
    exact Nat.mod_eq_of_lt hx
  · rw [Nat.add_comm, Nat.add_mul_div_right _ _ hw, Nat.div_eq_of_lt hx]
    omega

theorem pixel_index_lt {w h x y : ℕ} (hx : x < w) (hy : y < h) :
    y * w + x < w * h := by
  have h1 : y * w ≤ (h - 1) * w := Nat.mul_le_mul_right w (by omega)
  have h2 : (h - 1) * w + w = h * w := by
    have : h - 1 + 1 = h := by omega
    calc (h - 1) * w + w = (h - 1 + 1) * w := by ring
      _ = h * w := by rw [this]
  calc y * w + x < y * w + w := by omega
    _ ≤ (h - 1) * w + w := by omega
    _ = h * w := h2
    _ = w * h := Nat.mul_comm h w

/-- C6: on a well-formed RGBA grayscale buffer, the adaptive binarizer
stores at every pixel's channel 0 the value 255 exactly when the pixel
is ≤ (clipped-window mean − 5), else 0 — where the mean divides the sum
of the in-bounds window pixels by the in-bounds count only — and forces
alpha to 255. -/
theorem c6_adaptive_threshold (data : List ℕ) (w h : ℕ)
    (hwf : data.length = 4 * (w * h)) :
    ∀ x : ℕ, x < w → ∀ y : ℕ, y < h →
      ((applyAdaptiveThreshold data w h).getD ((y * w + x) * 4) 0 =
        (if (data.getD ((y * w + x) * 4) 0 : ℚ) ≤
            clippedMean data w h (x : ℤ) (y : ℤ) - 5 then 255 else 0)) ∧
      (applyAdaptiveThreshold data w h).getD ((y * w + x) * 4 + 3) 0 = 255 := by
  intro x hx y hy
  have hplt : y * w + x < w * h := pixel_index_lt hx hy
  have ⟨hmod, hdiv⟩ := pix_mod_div (y := y) hx
  constructor
  · have hi : (y * w + x) * 4 < data.length := by omega
    unfold applyAdaptiveThreshold
    rw [List.getD_eq_getElem _ _ (by simpa using hi), List.getElem_map,
      List.getElem_range]
    have h4 : (y * w + x) * 4 / 4 = y * w + x := by omega
    have hm4 : (y * w + x) * 4 % 4 = 0 := by omega
    rw [h4, hm4]
    rw [if_pos hplt]
    have : ((0 : ℕ) == 3) = false := by decide
    rw [this]
    simp only [Bool.false_eq_true, if_false, if_neg]
    rw [hmod, hdiv]
    unfold adaptivePixel
    rw [adaptiveSumCount_eq]
    unfold clippedMean
    have hcast : ((((clippedWindow w h (x : ℤ) (y : ℤ)).map fun q =>
        data.getD (pixIdx w q.1 q.2 * 4) 0).sum : ℕ) : ℚ) =
        ((clippedWindow w h (x : ℤ) (y : ℤ)).map fun q =>
          (data.getD (pixIdx w q.1 q.2 * 4) 0 : ℚ)).sum := by
      rw [Nat.cast_list_sum, List.map_map]
      rfl
    rw [pixIdx_natCast]
    simp only [hcast]
  · have hi : (y * w + x) * 4 + 3 < data.length := by omega
    unfold applyAdaptiveThreshold
    rw [List.getD_eq_getElem _ _ (by simpa using hi), List.getElem_map,
      List.getElem_range]
    have h4 : ((y * w + x) * 4 + 3) / 4 = y * w + x := by omega
    have hm4 : ((y * w + x) * 4 + 3) % 4 = 3 := by omega
    rw [h4, hm4]
    rw [if_pos hplt]
    rfl

/-- C6 witness: instantiated on a 1×1 image. -/
theorem c6_adaptive_threshold_witness :
    ((applyAdaptiveThreshold [7, 0, 0, 0] 1 1).getD 0 0 =
      (if ((7 : ℕ) : ℚ) ≤ clippedMean [7, 0, 0, 0] 1 1 0 0 - 5
       then 255 else 0)) ∧
    (applyAdaptiveThreshold [7, 0, 0, 0] 1 1).getD 3 0 = 255 := by
  have h := c6_adaptive_threshold [7, 0, 0, 0] 1 1 (by decide) 0 (by decide)
    0 (by decide)
  simpa using h

/-! ## Claim C7 -/

/-- The fixed 5×5 integer Gaussian kernel of `applyGaussianBlur`
(`ImageProcessor.tsx` lines 882–888), normalisation divisor 256. -/
def gaussianKernel : List (List ℕ) :=
  [[1, 4, 6, 4, 1],
   [4, 16, 24, 16, 4],
   [6, 24, 36, 24, 6],
   [4, 16, 24, 16, 4],
   [1, 4, 6, 4, 1]]

/-- The convolution sum of `applyGaussianBlur`: `ky`, `kx` in `0..4`
stand for the source's `-2..2` (so the sampled pixel is
`(x+kx-2, y+ky-2)`; the loops only run at interior pixels, where these
never underflow), with `data[idx]*kernel[ky][kx]` accumulated over the
window and channel 0 read at `((y+ky-2)*w + (x+kx-2))*4`. -/
def gaussianSum (data : List ℕ) (w : ℕ) (x y : ℕ) : ℕ :=
  (List.range 5).foldl (fun s ky =>
    (List.range 5).foldl (fun s2 kx =>
      s2 + data.getD (((y + ky - 2) * w + (x + kx - 2)) * 4) 0 *
        (gaussianKernel.getD ky []).getD kx 0) s) 0

/-- The JavaScript `Uint8ClampedArray` store of `value = sum / 256`:
since 256 is a power of two the float division is exact, and the store
rounds to the nearest integer, ties to even, clamped to 255. -/
def storeU8div256 (sum : ℕ) : ℕ :=
  let q := sum / 256
  let r := sum % 256
  let rounded :=
    if r < 128 then q
    else if 128 < r then q + 1
    else if q % 2 = 0 then q else q + 1
  min rounded 255

/-- `applyGaussianBlur` (`ImageProcessor.tsx` lines 878–913), expressed
pointwise over the zero-initialised output of the input's length: the
loops run only over interior pixels (`offset = 2` in from every edge),
writing the rounded `sum/256` to the colour channels and 255 to alpha;
every other cell keeps the zero fill. -/
def applyGaussianBlur (data : List ℕ) (w h : ℕ) : List ℕ :=
  (List.range data.length).map fun i =>
    if 2 ≤ i / 4 % w ∧ i / 4 % w + 2 < w ∧ 2 ≤ i / 4 / w ∧
        i / 4 / w + 2 < h ∧ i / 4 < w * h then
      (if i % 4 == 3 then 255
       else storeU8div256 (gaussianSum data w (i / 4 % w) (i / 4 / w)))
    else 0

/-- The claim-side weighted sum: the explicit double sum over the 5×5
kernel matrix. -/
def gaussianSumSpec (data : List ℕ) (w : ℕ) (x y : ℕ) : ℕ :=
  ∑ ky ∈ Finset.range 5, ∑ kx ∈ Finset.range 5,
    data.getD (((y + ky - 2) * w + (x + kx - 2)) * 4) 0 *
      (gaussianKernel.getD ky []).getD kx 0

theorem foldl_add_eq_sum (f : ℕ → ℕ) :
    ∀ n s : ℕ, (List.range n).foldl (fun acc k => acc + f k) s =
      s + ∑ k ∈ Finset.range n, f k := by
  intro n
  induction n with
  | zero => intro s; simp
  | succ m ih =>
    intro s
    rw [List.range_succ, List.foldl_append, ih, List.foldl_cons, List.foldl_nil,
      Finset.sum_range_succ]
    omega

theorem gaussianSum_eq (data : List ℕ) (w x y : ℕ) :
    gaussianSum data w x y = gaussianSumSpec data w x y := by
  unfold gaussianSum gaussianSumSpec
  have hinner : ∀ s ky : ℕ,
      (List.range 5).foldl (fun s2 kx =>
        s2 + data.getD (((y + ky - 2) * w + (x + kx - 2)) * 4) 0 *
          (gaussianKernel.getD ky []).getD kx 0) s =
      s + ∑ kx ∈ Finset.range 5,
        data.getD (((y + ky - 2) * w + (x + kx - 2)) * 4) 0 *
          (gaussianKernel.getD ky []).getD kx 0 := by
    intro s ky
    exact foldl_add_eq_sum _ 5 s
  simp only [hinner]
  rw [foldl_add_eq_sum (fun ky => ∑ kx ∈ Finset.range 5,
    data.getD (((y + ky - 2) * w + (x + kx - 2)) * 4) 0 *
      (gaussianKernel.getD ky []).getD kx 0) 5 0]
  omega

/-- C7: on a well-formed RGBA buffer, every interior pixel (full 5×5
neighbourhood in bounds) receives the kernel-weighted sum divided by 256
(stored with the 8-bit rounding of `Uint8ClampedArray`) replicated
across the three colour channels with alpha forced to 255, while every
border pixel (within 2 of any edge) is left entirely zero. -/
theorem c7_gaussian_blur (data : List ℕ) (w h : ℕ)
    (hwf : data.length = 4 * (w * h)) :
    (∀ x : ℕ, 2 ≤ x → x + 2 < w → ∀ y : ℕ, 2 ≤ y → y + 2 < h →
      (∀ ch : ℕ, ch < 3 →
        (applyGaussianBlur data w h).getD ((y * w + x) * 4 + ch) 0 =
          storeU8div256 (gaussianSumSpec data w x y)) ∧
      (applyGaussianBlur data w h).getD ((y * w + x) * 4 + 3) 0 = 255) ∧
    (∀ x : ℕ, x < w → ∀ y : ℕ, y < h →
      (x < 2 ∨ w ≤ x + 2 ∨ y < 2 ∨ h ≤ y + 2) →
      ∀ ch : ℕ, ch < 4 →
        (applyGaussianBlur data w h).getD ((y * w + x) * 4 + ch) 0 = 0) := by
  constructor
  · intro x hx2 hxw y hy2 hyh
    have hx : x < w := by omega
    have hy : y < h := by omega
    have hplt : y * w + x < w * h := pixel_index_lt hx hy
    have ⟨hmod, hdiv⟩ := pix_mod_div (y := y) hx
    constructor
    · intro ch hch
      have hi : (y * w + x) * 4 + ch < data.length := by omega
      unfold applyGaussianBlur
      rw [List.getD_eq_getElem _ _ (by simpa using hi), List.getElem_map,
        List.getElem_range]
      have h4 : ((y * w + x) * 4 + ch) / 4 = y * w + x := by omega
      have hm4 : ((y * w + x) * 4 + ch) % 4 = ch := by omega
      rw [h4, hm4, hmod, hdiv]
      rw [if_pos ⟨hx2, hxw, hy2, hyh, hplt⟩]
      have hch3 : (ch == 3) = false := by
        simp only [beq_eq_false_iff_ne, ne_eq]
        omega
      rw [hch3]
      simp only [Bool.false_eq_true, if_false, if_neg]
      rw [gaussianSum_eq]
    · have hi : (y * w + x) * 4 + 3 < data.length := by omega
      unfold applyGaussianBlur
      rw [List.getD_eq_getElem _ _ (by simpa using hi), List.getElem_map,
        List.getElem_range]
      have h4 : ((y * w + x) * 4 + 3) / 4 = y * w + x := by omega
      have hm4 : ((y * w + x) * 4 + 3) % 4 = 3 := by omega
      rw [h4, hm4, hmod, hdiv]
      rw [if_pos ⟨hx2, hxw, hy2, hyh, hplt⟩]
      rfl
  · intro x hx y hy hborder ch hch
    have hplt : y * w + x < w * h := pixel_index_lt hx hy
    have ⟨hmod, hdiv⟩ := pix_mod_div (y := y) hx
    have hi : (y * w + x) * 4 + ch < data.length := by omega
    unfold applyGaussianBlur
    rw [List.getD_eq_getElem _ _ (by simpa using hi), List.getElem_map,
      List.getElem_range]
    have h4 : ((y * w + x) * 4 + ch) / 4 = y * w + x := by omega
    rw [h4, hmod, hdiv]
    rw [if_neg (by omega)]

/-- C7 witness: instantiated on a 5×5 all-white image, whose single
interior pixel (2,2) and border pixel (0,0) exercise both clauses. -/
theorem c7_gaussian_blur_witness :
    ((applyGaussianBlur (List.replicate 100 255) 5 5).getD ((2 * 5 + 2) * 4) 0 =
      storeU8div256 (gaussianSumSpec (List.replicate 100 255) 5 2 2)) ∧
    (applyGaussianBlur (List.replicate 100 255) 5 5).getD 0 0 = 0 := by
  have h := c7_gaussian_blur (List.replicate 100 255) 5 5 (by simp)
  refine ⟨(h.1 2 (by omega) (by omega) 2 (by omega) (by omega)).1 0 (by omega), ?_⟩
  have h2 := h.2 0 (by omega) 0 (by omega) (by omega) 0 (by omega)
  simpa using h2
